import Mathlib

/-!
Shallow embedding of `tuflow_ensemble/te.py` (the statistical reduction
pipeline for TUFLOW ensemble results) and proofs about its behaviour.

Conventions of the embedding:
* a CSV file is a `List (List String)` (rows of cells, as produced by
  `csv.reader`);
* `pandas` missing values (`NaN`) are `Option.none`; numeric cells are `ℚ`;
* Python functions that can raise an uncaught exception are modelled as
  `Option`-valued functions, with `none` for the raising path;
* Python `dict`s are association lists with insertion-order semantics
  (updating an existing key keeps its position, new keys are appended),
  matching the iteration order that `min(d, key=d.get)` sees.
-/

namespace TE

/-! ## Generic string helpers (Python `in`, `str.lower`, `str.replace`) -/

/-- Does `pat` occur at the head of `s`? (helper for the substring test). -/
def startsList : List Char → List Char → Bool
  | [], _ => true
  | _ :: _, [] => false
  | p :: ps, c :: cs => p = c && startsList ps cs

/-- Does `pat` occur contiguously anywhere in `s`?  Models Python's
`pat in s` on strings. -/
def subsList (pat : List Char) : List Char → Bool
  | [] => startsList pat []
  | c :: cs => startsList pat (c :: cs) || subsList pat cs

/-- `hasSub pat s` models the Python substring test `pat in s`. -/
def hasSub (pat s : String) : Bool := subsList pat.data s.data

/-- Models Python `str.lower()` (ASCII case folding, which is all the
pipeline's filenames use). -/
def pyLower (s : String) : List Char := s.data.map Char.toLower

/-! ## `_str_to_valid_filename` (te.py lines 454-474) -/

/-- The characters of the literal `invalid_chars = r"%:/,\[]<>*?"`. -/
def invalidChars : List Char := ['%', ':', '/', ',', '\\', '[', ']', '<', '>', '*', '?']

/-- The character loop of `_str_to_valid_filename`: each invalid character
becomes `'-'`, every other character is kept. -/
def cleanChars : List Char → List Char
  | [] => []
  | c :: cs => (if c ∈ invalidChars then '-' else c) :: cleanChars cs

/-- `_str_to_valid_filename(name)`. -/
def strToValidFilename (name : String) : String := ⟨cleanChars name.data⟩

/-! ## `_parse_run_id` (te.py lines 137-157)

The three regular expressions are embedded directly:
`_.*?_` (leftmost-shortest, `.` does not cross a newline),
`\d{1,4}m` (leftmost, greedy in the digit count), and `tp\d*`
(leftmost, maximal digits). -/

/-- Characters strictly before the next `'_'`, failing if a newline or the
end of the string is reached first (the `.*?_` tail of `_.*?_`). -/
def innerUnd : List Char → Option (List Char)
  | [] => none
  | '_' :: _ => some []
  | '\n' :: _ => none
  | c :: cs => (innerUnd cs).map (c :: ·)

/-- `re.search(r"_.*?_", l)`: the full matched text (underscores included)
of the leftmost-shortest match. -/
def matchStorm : List Char → Option (List Char)
  | [] => none
  | '_' :: cs =>
    match innerUnd cs with
    | some inner => some ('_' :: (inner ++ ['_']))
    | none => matchStorm cs
  | _ :: cs => matchStorm cs

/-- One attempt of `\d{1,4}m` at the current position with exactly `k`
digits. -/
def durTry (k : Nat) (l : List Char) : Option (List Char) :=
  if (l.take k).length = k ∧ (l.take k).all Char.isDigit = true ∧ l.get? k = some 'm'
  then some (l.take k ++ ['m']) else none

/-- `\d{1,4}m` anchored at the current position (greedy: 4 digits first). -/
def durAt (l : List Char) : Option (List Char) :=
  (durTry 4 l).orElse fun _ => (durTry 3 l).orElse fun _ =>
    (durTry 2 l).orElse fun _ => durTry 1 l

/-- `re.search(r"\d{1,4}m", l)`: the leftmost match. -/
def matchDur : List Char → Option (List Char)
  | [] => none
  | c :: cs => (durAt (c :: cs)).orElse fun _ => matchDur cs

/-- `re.search(r"tp\d*", l)`: the leftmost match (maximal digit tail). -/
def matchTP : List Char → Option (List Char)
  | [] => none
  | c :: cs =>
    if c = 't' ∧ cs.head? = some 'p'
    then some ('t' :: 'p' :: cs.tail.takeWhile Char.isDigit)
    else matchTP cs

/-- Python `.replace("_", "")` on the matched storm text. -/
def removeUnd (l : List Char) : List Char := l.filter (fun c => c ≠ '_')

/-- `_parse_run_id(run_id)`: `none` models the `AttributeError` raised by
`.group()` when any of the three searches fails (no partial result). -/
def parseRunId (runId : String) : Option (String × String × String) := do
  let l := pyLower runId
  let storm ← matchStorm l
  let dur ← matchDur l
  let tp ← matchTP l
  return (⟨removeUnd storm⟩, ⟨dur⟩, ⟨tp⟩)

/-! ## Python `int()` and `str()` on integers -/

/-- Numeric value of a digit character. -/
def digVal (c : Char) : Nat := c.toNat - '0'.toNat

/-- Value of a digit string, most significant digit first. -/
def digitsVal (l : List Char) : Nat := l.foldl (fun a c => 10 * a + digVal c) 0

/-- The sign-less digit run accepted by Python `int()`. -/
def pyIntDigits (ds : List Char) : Option Nat :=
  if ds ≠ [] ∧ ds.all Char.isDigit = true then some (digitsVal ds) else none

/-- `int()` after whitespace stripping: an optional sign followed by a
non-empty digit run; everything else raises `ValueError` (`none`). -/
def pyIntChars : List Char → Option Int
  | [] => none
  | c :: ds =>
    if c = '-' then (pyIntDigits ds).map (fun k => -(Int.ofNat k))
    else if c = '+' then (pyIntDigits ds).map Int.ofNat
    else (pyIntDigits (c :: ds)).map Int.ofNat

/-- Python `int(s)` (modulo numeric-literal extensions such as underscore
separators, which no duration label contains). -/
def pyInt (s : String) : Option Int :=
  pyIntChars (((s.data.dropWhile (fun c => c = ' ')).reverse.dropWhile
    (fun c => c = ' ')).reverse)

/-- The character of a decimal digit. -/
def digitChr (n : Nat) : Char := Char.ofNat ('0'.toNat + n)

/-- Decimal digits of a natural number, most significant first. -/
def natChars (n : Nat) : List Char :=
  if _h : n < 10 then [digitChr n]
  else natChars (n / 10) ++ [digitChr (n % 10)]
termination_by n
decreasing_by exact Nat.div_lt_self (by omega) (by omega)

/-- Python `str(n)` on an `int`. -/
def pyStr (n : Int) : String :=
  if n < 0 then ⟨'-' :: natChars n.natAbs⟩ else ⟨natChars n.natAbs⟩

/-! ## `_drop_sort_duration` (te.py lines 286-303) -/

/-- `re.sub(r"[a-zA-Z]", "", label)`: remove the ASCII letters only. -/
def stripAlpha (s : String) : String := ⟨s.data.filter (fun c => ¬ c.isAlpha)⟩

/-- The per-label mapping of `_drop_sort_duration`:
`int(re.sub(r"[a-zA-Z]", "", str(label)))` for a string label. -/
def durKey (label : String) : Option Int := pyInt (stripAlpha label)

/-- Ordering of index rows by their integer duration key. -/
def keyLe {α : Type _} (a b : Int × α) : Prop := a.1 ≤ b.1

instance {α : Type _} : DecidableRel (@keyLe α) :=
  fun a b => inferInstanceAs (Decidable (a.1 ≤ b.1))

instance {α : Type _} : IsTotal (Int × α) keyLe := ⟨fun a b => Int.le_total a.1 b.1⟩

instance {α : Type _} : IsTrans (Int × α) keyLe := ⟨fun _ _ _ => Int.le_trans⟩

/-- `_drop_sort_duration` on a string-indexed grid (a list of
index-label/row pairs): map every label through `durKey` (any failure is an
uncaught `ValueError`, i.e. `none`) and sort ascending by the integer key.
`sort_index` is modelled with a stable insertion sort. -/
def dropSortDur {α : Type _} (g : List (String × α)) : Option (List (Int × α)) := do
  let keyed ← g.mapM (fun p => (durKey p.1).map (fun n => (n, p.2)))
  return List.insertionSort keyLe keyed

/-- `_drop_sort_duration` applied a second time, to a grid whose index
already holds integers: `str(x)` turns each key back into its decimal
representation first. -/
def dropSortDurZ {α : Type _} (g : List (Int × α)) : Option (List (Int × α)) :=
  dropSortDur (g.map (fun p => (pyStr p.1, p.2)))

/-- Modelled from the spec: "strip all non-numeric characters from each
label" — deliberately following the spec's words rather than the code, for
comparison with `stripAlpha` (which removes letters only). -/
def stripNonNumericSpec (s : String) : String := ⟨s.data.filter Char.isDigit⟩

/-! ## `_get_crit_tp` (te.py lines 306-346) -/

/-- A grid row as seen by `df.apply(..., axis=1)`: column labels paired with
cells (`none` is `NaN`).  When `_get_crit_tp` runs, the row holds the
temporal-pattern columns followed by `Average` and `Median`. -/
abbrev Row := List (String × Option ℚ)

/-- `row[label]` on a  `pd.Series`: the cell under the first matching label
(`none` models the `KeyError` when the label is absent). -/
def lookupCell (lbl : String) : Row → Option (Option ℚ)
  | [] => none
  | p :: rest => if p.1 = lbl then some p.2 else lookupCell lbl rest

/-- `row.dropna()`: keep the present cells only. -/
def dropna : Row → List (String × ℚ)
  | [] => []
  | (_, none) :: rest => dropna rest
  | (l, some v) :: rest => (l, v) :: dropna rest

/-- `_get_col_name(value, input_row)`: `input_row[input_row == value].index[0]`,
the label of the first cell equal to `value` (`none` models the `IndexError`
on an empty selection). -/
def getColName (v : ℚ) : List (String × ℚ) → Option String
  | [] => none
  | p :: rest => if p.2 = v then some p.1 else getColName v rest

/-- Python dict assignment `d[k] = v`: update an existing key in place
(keeping its position), otherwise append. -/
def dictInsert (k : String) (v : ℚ) : List (String × ℚ) → List (String × ℚ)
  | [] => [(k, v)]
  | p :: rest => if p.1 = k then (k, v) :: rest else p :: dictInsert k v rest

/-- The `for cell in row:` loop of `_get_crit_tp`, building `diffs` over the
values `vs` of the dropped row (`none` propagates the unreachable
`IndexError` of `_get_col_name`). -/
def diffsLoop (m : ℚ) (dropped : List (String × ℚ)) :
    List ℚ → List (String × ℚ) → Option (List (String × ℚ))
  | [], d => some d
  | v :: vs, d =>
    match getColName v dropped with
    | some cn =>
      if hasSub "tp" cn = true then diffsLoop m dropped vs (dictInsert cn (v - m) d)
      else diffsLoop m dropped vs d
    | none => none

/-- `{k: v for k, v in diffs.items() if v > 0}` (keeps insertion order). -/
def positiveDiffs : List (String × ℚ) → List (String × ℚ)
  | [] => []
  | p :: rest => if 0 < p.2 then p :: positiveDiffs rest else positiveDiffs rest

/-- Runner for `min(d, key=d.get)`: first key attaining the strictly
smallest value. -/
def minKeyGo (best : String × ℚ) : List (String × ℚ) → String
  | [] => best.1
  | p :: rest => if p.2 < best.2 then minKeyGo p rest else minKeyGo best rest

/-- `min(d, key=d.get)`; `none` models the `ValueError` on an empty dict
(caught by `_get_crit_tp` and turned into `"NA"`). -/
def minKey : List (String × ℚ) → Option String
  | [] => none
  | p :: rest => some (minKeyGo p rest)

/-- `_get_crit_tp(row)`.  The `some none` median case (a `NaN` median) makes
every difference `NaN`, so no difference tests `> 0` and the `ValueError`
path yields `"NA"` directly. -/
def getCritTp (row : Row) : Option String :=
  match lookupCell "Median" row with
  | none => none
  | some none => some "NA"
  | some (some m) =>
    let dropped := dropna row
    match diffsLoop m dropped (dropped.map (fun p => p.2)) [] with
    | none => none
    | some diffs =>
      match minKey (positiveDiffs diffs) with
      | some k => some k
      | none => some "NA"

/-! ## `_get_all_max_flows` (te.py lines 179-212) -/

/-- Split a character list at the first `'.'` (integer part, fractional
part).  A second dot ends up inside the fractional part and is rejected by
the digit test in `decCore`. -/
def splitDot : List Char → List Char × List Char
  | [] => ([], [])
  | c :: rest =>
    if c = '.' then ([], rest)
    else
      let p := splitDot rest
      (c :: p.1, p.2)

/-- The sign-less decimal accepted by float parsing: digits with an optional
single dot, at least one digit in total. -/
def decCore (l : List Char) : Option ℚ :=
  let p := splitDot l
  if (p.1 ++ p.2) ≠ [] ∧ (p.1 ++ p.2).all Char.isDigit = true
  then some ((digitsVal p.1 : ℚ) + (digitsVal p.2 : ℚ) / (10 : ℚ) ^ p.2.length)
  else none

/-- Signed decimal. -/
def decSign : List Char → Option ℚ
  | [] => none
  | c :: rest =>
    if c = '-' then (decCore rest).map (fun q => -q)
    else if c = '+' then decCore rest
    else decCore (c :: rest)

/-- `pd.to_numeric(cell, errors="coerce")` on one string cell: a plain
signed decimal with optional surrounding spaces parses; anything else
becomes `NaN` (`none`), never an exception.  (Scientific notation and
infinities are not modelled; no flow cell uses them.) -/
def toNumeric (s : String) : Option ℚ :=
  decSign (((s.data.dropWhile (fun c => c = ' ')).reverse.dropWhile
    (fun c => c = ' ')).reverse)

/-- `Series.max()`: maximum of the present values, `NaN` (`none`) when
nothing remains. -/
def maxQ : List ℚ → Option ℚ
  | [] => none
  | v :: vs =>
    match maxQ vs with
    | none => some v
    | some w => some (if v < w then w else v)

/-- One column's peak in `_get_all_max_flows`:
`pd.to_numeric(po_sr[column], errors="coerce").max()` — every cell coerced
(missing or unparseable → `NaN`), maximum ignoring `NaN`. -/
def maxFlow (cells : List (Option String)) : Option ℚ :=
  maxQ (cells.filterMap (fun c => c.bind toNumeric))

/-- The `po_max_flows` loop of `_get_all_max_flows`: every column whose
label contains `"Flow"` contributes its coerced maximum, in column order.
(The surrounding run-identity fields and `Max Flow <location>` labels do not
affect which flows are extracted.) -/
def maxFlowsLoop : List (String × List (Option String)) → List (String × Option ℚ)
  | [] => []
  | p :: rest =>
    if hasSub "Flow" p.1 = true then (p.1, maxFlow p.2) :: maxFlowsLoop rest
    else maxFlowsLoop rest

/-! ## `copy_po_csvs` (te.py lines 66-98) and `_skipped_inputs` (523-533) -/

/-- A raw CSV file: the rows of cells produced by `csv.reader`. -/
abbrev CsvFile := List (List String)

/-- `_header_length`: length of the first `csv.reader` row; `none` models
the uncaught `StopIteration` that `next(reader)` raises on a file with no
rows at all. -/
def headerLength (f : CsvFile) : Option Nat := f.head?.map List.length

/-- Does `pd.read_csv` raise `EmptyDataError` on this file?  pandas raises
it exactly when there is no parseable content: every row blank.  A file
with a header row and no data rows parses fine (one row, `header=None`). -/
def emptyData (f : CsvFile) : Bool := f.all (fun r => r.isEmpty)

/-- The filter-loop body of `copy_po_csvs` for one file: `none` is an
uncaught exception (`StopIteration` on a 0-row file), `some true` keeps the
file, `some false` skips it (`EmptyDataError` caught and logged). -/
def keepFile (f : CsvFile) : Option Bool :=
  match headerLength f with
  | none => none
  | some _ => some (!emptyData f)

/-- `copy_po_csvs` over named files (the copy step preserves base names):
the surviving (path, file) pairs in input order, or `none` when an
exception escapes the loop. -/
def copyPoCsvs : List (String × CsvFile) → Option (List (String × CsvFile))
  | [] => some []
  | nf :: rest =>
    match keepFile nf.2 with
    | none => none
    | some true => (copyPoCsvs rest).map (fun r => nf :: r)
    | some false => copyPoCsvs rest

/-- `os.path.basename`: the part after the last `'/'`. -/
def baseName (p : String) : String :=
  ⟨(p.data.reverse.takeWhile (fun c => ¬ c = '/')).reverse⟩

/-- `_skipped_inputs(raw_inputs, saved_inputs)`: base names of raw inputs
absent (Python `not in`) from the saved inputs' base names, in raw order. -/
def skippedInputs (raw saved : List String) : List String :=
  (raw.map baseName).filter (fun r => ¬ r ∈ saved.map baseName)

/-! ## `parse_po_csv` (te.py lines 101-134) and `_header_col` (25-33) -/

/-- `_header_col`: index of the first csv row with a cell equal to `"Flow"`
(`none` models the `IndexError` of `header_row[0]` when there is none). -/
def headerCol : CsvFile → Option Nat
  | [] => none
  | r :: rest =>
    if r.contains "Flow" then some 0
    else (headerCol rest).map (· + 1)

/-- Cell `j` of a csv row as read by `pd.read_csv(..., header=None)`:
rows shorter than the requested width are padded with `NaN`. -/
def cellAt (r : List String) (j : Nat) : Option String := r.get? j

/-- The table returned by `parse_po_csv`: the source filename tag, the time
index column, and the relabelled data columns. -/
structure PoTable where
  name : String
  index : List (Option String)
  cols : List (String × List (Option String))
  deriving DecidableEq

/-- An f-string `f"{column}"` of a label (`NaN` prints as `"nan"`). -/
def labelStr : Option String → String
  | some s => s
  | none => "nan"

/-- The dataframe after reading with `usecols=range(0, hl)` and dropping row
`hc`, as labelled columns: label `j` is cell `j` of the header row, the
cells are column `j` of every remaining row. -/
def buildCols (f : CsvFile) (hl hc : Nat) (r : List String) :
    List (Option String × List (Option String)) :=
  (List.range hl).map (fun j => (cellAt r j, (f.eraseIdx hc).map (fun rr => cellAt rr j)))

/-- The column labels assigned by `df.columns = df.iloc[head_col]`. -/
def colLabels (f : CsvFile) : Option (List (Option String)) := do
  let hl ← headerLength f
  let hc ← headerCol f
  let r ← f.get? hc
  return (List.range hl).map (cellAt r)

/-- `df.columns = [f"{column}.{i}" for i, column in enumerate(df.columns)]`. -/
def relabel (cols : List (Option String × List (Option String))) :
    List (String × List (Option String)) :=
  cols.mapIdx (fun i c => (labelStr c.1 ++ "." ++ toString i, c.2))

/-- `parse_po_csv(input_file)`: read restricted to the first-row width,
label columns from the `"Flow"` header row, drop that row (and only that
row), drop every column labelled like the first, set the next column as the
index, and relabel.  `none` models the raising paths (empty file — the
`exit()` call —, no `"Flow"` row, or a `NaN` label where pandas needs a
column name). -/
def parsePoCsv (name : String) (f : CsvFile) : Option PoTable := do
  let hl ← headerLength f
  let hc ← headerCol f
  let r ← f.get? hc
  let cols := buildCols f hl hc r
  let h0 ← cols.head?
  let lbl0 ← h0.1
  let cols1 := cols.filter (fun c => ¬ c.1 = some lbl0)
  let h1 ← cols1.head?
  let lbl1 ← h1.1
  let cols2 := cols1.filter (fun c => ¬ c.1 = some lbl1)
  return ⟨name, h1.2, relabel cols2⟩

/-! ## `summarize_results` (te.py lines 423-451) -/

/-- A cell of a critical-storm grid: a number, a string (as held by the
`Critical TP` column), or `NaN`. -/
inductive Cell where
  | num (q : ℚ)
  | str (s : String)
  | na
  deriving DecidableEq

/-- A critical-storm grid: its identity tag (`f"{event}: {po_line}"`) and
its rows, integer duration index ↦ labelled cells. -/
structure StormGrid where
  name : String
  rows : List (Int × List (String × Cell))
  deriving DecidableEq

/-- `row[label]` on a grid row: first matching label, `none` when absent. -/
def lookupG (lbl : String) : List (String × Cell) → Option Cell
  | [] => none
  | p :: rest => if p.1 = lbl then some p.2 else lookupG lbl rest

/-- The numeric Median of a row (`none` when missing or `NaN`; in a real
grid the `Median` column exists on every row). -/
def medOf (r : List (String × Cell)) : Option ℚ :=
  match lookupG "Median" r with
  | some (Cell.num q) => some q
  | _ => none

/-- The scan of `idxmax` over the remaining rows: replace the current best
only on a strictly larger Median, so the first maximum wins. -/
def idxmaxGo (best : Int × ℚ) : List (Int × List (String × Cell)) → Int × ℚ
  | [] => best
  | (d, r) :: rest =>
    match medOf r with
    | some m => if best.2 < m then idxmaxGo (d, m) rest else idxmaxGo best rest
    | none => idxmaxGo best rest

/-- `crit_tp_df["Median"].max()` / `.idxmax()` (skipping `NaN`): the first
row attaining the maximal numeric Median, as (duration, median); `none`
models the `ValueError` when every Median is `NaN`. -/
def idxmaxMedian : List (Int × List (String × Cell)) → Option (Int × ℚ)
  | [] => none
  | (d, r) :: rest =>
    match medOf r with
    | some m => some (idxmaxGo (d, m) rest)
    | none => idxmaxMedian rest

/-- `str.split(":", 1)` when unpacked into two names: the parts before and
after the first colon; `none` models the `ValueError` when no colon
exists. -/
def splitColonGo (acc : List Char) : List Char → Option (String × String)
  | [] => none
  | c :: cs => if c = ':' then some (⟨acc.reverse⟩, ⟨cs⟩) else splitColonGo (c :: acc) cs

/-- Split a string at its first colon. -/
def splitColon (s : String) : Option (String × String) := splitColonGo [] s.data

/-- Python `s.replace(pat, "")`: remove every (non-overlapping, leftmost)
occurrence of `pat`. -/
def removeAllL (pat : List Char) : List Char → List Char
  | [] => []
  | c :: cs =>
    if startsList pat (c :: cs) = true ∧ pat ≠ []
    then removeAllL pat (List.drop (pat.length - 1) cs)
    else c :: removeAllL pat cs
termination_by l => l.length
decreasing_by
  · simp only [List.length_cons]
    have := List.length_drop (pat.length - 1) cs
    omega
  · simp

/-- Python `s.replace(pat, "")` on strings. -/
def removeAll (pat s : String) : String := ⟨removeAllL pat.data s.data⟩

/-- The summary row produced by `summarize_results`. -/
structure CritSummary where
  event : String
  poLine : String
  critDuration : Int
  critTp : String
  critFlow : Cell
  deriving DecidableEq

/-- The string content of a `Critical TP` cell; `none` for non-string
cells, on which `crit_tp_df.loc[crit_duration, crit_tp]` could not be
used as a column key. -/
def critTpStr : Cell → Option String
  | Cell.str s => some s
  | _ => none

/-- The body of `summarize_results` after `idxmax` found the critical
duration: the row at that duration, its Critical TP, the flow under that
column (or the `"NA"` sentinel), and event / PO-line recovered by splitting
the identity tag at its first colon and removing `"Max Flow "`. -/
def summarizeFrom (g : StormGrid) (critDur : Int) : Option CritSummary := do
  let r ← (g.rows.find? (fun p => p.1 == critDur)).map Prod.snd
  let ctp ← lookupG "Critical TP" r
  let ep ← splitColon g.name
  let poLine := removeAll "Max Flow " ep.2
  let s ← critTpStr ctp
  if s = "NA" then pure ⟨ep.1, poLine, critDur, s, Cell.str "NA"⟩
  else do
    let fl ← lookupG s r
    pure ⟨ep.1, poLine, critDur, s, fl⟩

/-- `summarize_results(crit_tp_df)` (`max_med` is computed by the code but
unused, mirrored by the discarded second component).  `none` models the
raising paths: all-`NaN` Median column, no colon in the identity tag, or a
non-string `Critical TP` cell. -/
def summarizeResults (g : StormGrid) : Option CritSummary := do
  let dm ← idxmaxMedian g.rows
  summarizeFrom g dm.1

/-! ## `_tp_vs_max_flow_df` (te.py lines 349-382) -/

/-- An input row of the per-(PO line, event) dataframe handed to
`_tp_vs_max_flow_df`: the identity fields and the remaining
`Max Flow <location>` column cells. -/
structure RunRow where
  event : String
  duration : String
  tp : String
  flows : List (String × Option ℚ)
  deriving DecidableEq

/-- `Series.unique().tolist()`: first occurrences, in order. -/
def uniqueList : List String → List String
  | [] => []
  | s :: rest => s :: uniqueList (rest.filter (fun x => ¬ x = s))
termination_by l => l.length
decreasing_by
  have := List.length_filter_le (fun x => decide ¬ x = s) rest
  simp only [List.length_cons]
  omega

/-- The `po_line` loop of `_tp_vs_max_flow_df`: the LAST column label
containing `"Max Flow"` (the loop overwrites); `none` when there is none,
in which case `po_line = ""` makes the pivot raise a `KeyError`. -/
def lastMaxFlowCol (cols : List String) : Option String :=
  (cols.filter (fun c => hasSub "Max Flow" c)).getLast?

/-- Lexicographic (code-point) string order, as pandas sorts string labels. -/
def strLeB : List Char → List Char → Bool
  | [], _ => true
  | _ :: _, [] => false
  | a :: as, b :: bs => if a < b then true else if b < a then false else strLeB as bs

/-- The cell of the pivoted grid at (duration, temporal pattern): the value
of the unique matching run, `NaN` when that combination is absent. -/
def tripCell (trips : List (String × String × Option ℚ)) (d t : String) : Option ℚ :=
  match trips.find? (fun x => x.1 == d && x.2.1 == t) with
  | some x => x.2.2
  | none => none

/-- `df.pivot(index="Duration", columns="Temporal Pattern", values=po_line)`
on the (duration, tp, value) triples: pandas raises
`ValueError: Index contains duplicate entries, cannot reshape` on a
duplicate (duration, temporal-pattern) pair (`none`); otherwise the grid
with sorted unique durations as index and sorted unique temporal patterns
as columns. -/
def pivotGrid (trips : List (String × String × Option ℚ)) :
    Option (List (String × List (String × Option ℚ))) :=
  if (trips.map (fun x => (x.1, x.2.1))).Nodup then
    some ((List.insertionSort (fun a b => strLeB a.data b.data = true)
        (uniqueList (trips.map (fun x => x.1)))).map
      (fun d => (d, (List.insertionSort (fun a b => strLeB a.data b.data = true)
        (uniqueList (trips.map (fun x => x.2.1)))).map
          (fun t => (t, tripCell trips d t)))))
  else none

/-- `Series.mean()` over the present values (`NaN` when none remain). -/
def meanQ (l : List ℚ) : Option ℚ :=
  if l = [] then none else some (l.sum / l.length)

/-- `Series.median()` over the present values: middle of the sorted values,
or the mean of the two middles (`NaN` when none remain). -/
def medianQ (l : List ℚ) : Option ℚ :=
  let s := List.insertionSort (fun a b : ℚ => a ≤ b) l
  if s.length % 2 = 1 then s.get? (s.length / 2)
  else
    match s.get? (s.length / 2 - 1), s.get? (s.length / 2) with
    | some a, some b => some ((a + b) / 2)
    | _, _ => none

/-- An `Option ℚ` cell as a grid `Cell`. -/
def toCell : Option ℚ → Cell
  | some q => Cell.num q
  | none => Cell.na

/-- The per-row statistics step of `_tp_vs_max_flow_df`: Average and Median
over the `"tp"` columns (ignoring missing cells), then `_get_crit_tp`
applied to the row extended with those two columns. -/
def statRow (cells : List (String × Option ℚ)) : Option (List (String × Cell)) := do
  let tpvals := (cells.filter (fun c => hasSub "tp" c.1)).filterMap (fun c => c.2)
  let avg := meanQ tpvals
  let med := medianQ tpvals
  let ctp ← getCritTp (cells ++ [("Average", avg), ("Median", med)])
  pure ((cells.map (fun c => (c.1, toCell c.2))) ++
    [("Average", toCell avg), ("Median", toCell med), ("Critical TP", Cell.str ctp)])

/-- `_tp_vs_max_flow_df(df)`: event from the first unique Event value, the
last `Max Flow` column as the PO line, the duration × temporal-pattern
pivot, the numeric duration sort, and the Average / Median / Critical TP
columns; `none` models every raising path (empty frame, missing values
column, duplicate pivot pairs, duration labels `int()` cannot parse). -/
def tpVsMaxFlowDf (cols : List String) (rows : List RunRow) :
    Option (String × String × StormGrid) := do
  let ev ← (uniqueList (rows.map (fun r => r.event))).head?
  let po ← lastMaxFlowCol cols
  let trips ← rows.mapM (fun r =>
    (lookupCell po r.flows).map (fun v => (r.duration, r.tp, v)))
  let grid0 ← pivotGrid trips
  let sorted1 ← dropSortDur grid0
  let rows2 ← sorted1.mapM (fun p => (statRow p.2).map (fun rr => (p.1, rr)))
  return (ev, po, ⟨po ++ ": " ++ ev ++ " Event", rows2⟩)

/-! ## Claim C9: the filename sanitizer -/

theorem cleanChars_eq_map (l : List Char) :
    cleanChars l = l.map (fun c => if c ∈ invalidChars then '-' else c) := by
  induction l with
  | nil => rfl
  | cons c cs ih => simp [cleanChars, ih]

/-- **C9**: `_str_to_valid_filename` replaces each occurrence of exactly the
characters `% : / , \ [ ] < > * ?` with `'-'`, leaves every other character
unchanged, and preserves the string's length. -/
theorem c9_filename_sanitizer (s : String) :
    (strToValidFilename s).data =
      s.data.map (fun c => if c ∈ invalidChars then '-' else c) ∧
    (strToValidFilename s).length = s.length := by
  constructor
  · exact cleanChars_eq_map s.data
  · show (cleanChars s.data).length = s.data.length
    rw [cleanChars_eq_map, List.length_map]

/-! ## Claim C4: the run-identity parser -/

theorem durTry_ne_nil {k : Nat} {l d : List Char} (h : durTry k l = some d) :
    d ≠ [] := by
  unfold durTry at h
  split at h
  · cases h; simp
  · cases h

theorem durAt_ne_nil {l d : List Char} (h : durAt l = some d) : d ≠ [] := by
  unfold durAt at h
  cases h4 : durTry 4 l with
  | some d4 => rw [h4] at h; cases h; exact durTry_ne_nil h4
  | none =>
    rw [h4] at h; simp only [Option.orElse] at h
    cases h3 : durTry 3 l with
    | some d3 => rw [h3] at h; cases h; exact durTry_ne_nil h3
    | none =>
      rw [h3] at h; simp only [Option.orElse] at h
      cases h2 : durTry 2 l with
      | some d2 => rw [h2] at h; cases h; exact durTry_ne_nil h2
      | none =>
        rw [h2] at h; simp only [Option.orElse] at h
        exact durTry_ne_nil h

theorem matchDur_ne_nil : ∀ {l d : List Char}, matchDur l = some d → d ≠ [] := by
  intro l
  induction l with
  | nil => intro d h; cases h
  | cons c cs ih =>
    intro d h
    rw [matchDur] at h
    cases ha : durAt (c :: cs) with
    | some da => rw [ha] at h; cases h; exact durAt_ne_nil ha
    | none =>
      rw [ha] at h; simp only [Option.orElse] at h
      exact ih h

theorem matchTP_ne_nil : ∀ {l t : List Char}, matchTP l = some t → t ≠ [] := by
  intro l
  induction l with
  | nil => intro t h; cases h
  | cons c cs ih =>
    intro t h
    rw [matchTP] at h
    split at h
    · cases h; simp
    · exact ih h

theorem mk_ne_empty {l : List Char} (h : l ≠ []) : (⟨l⟩ : String) ≠ "" := by
  intro hc
  exact h (congrArg String.data hc)

/-- **C4**: for every filename containing all three tokens (a non-empty event
between the first two underscores, 1-4 digits followed by `m`, and `tp`
followed by digits), `_parse_run_id` returns a triple of non-empty strings;
on the spec's example it returns `("0.5ey", "360m", "tp07")`; and when any of
the three patterns is absent it raises (returns no partial result). -/
theorem c4_run_identity :
    (∀ s st d t, matchStorm (pyLower s) = some st → removeUnd st ≠ [] →
      matchDur (pyLower s) = some d → matchTP (pyLower s) = some t →
      ∃ ev du tp, parseRunId s = some (ev, du, tp) ∧ ev ≠ "" ∧ du ≠ "" ∧ tp ≠ "") ∧
    parseRunId "Example-Catchment_0.5EY_360m_tp07_no-blockages_001_PO.csv" =
      some ("0.5ey", "360m", "tp07") ∧
    (∀ s, matchStorm (pyLower s) = none ∨ matchDur (pyLower s) = none ∨
      matchTP (pyLower s) = none → parseRunId s = none) := by
  refine ⟨?_, by decide, ?_⟩
  · intro s st d t hst hne hd ht
    refine ⟨⟨removeUnd st⟩, ⟨d⟩, ⟨t⟩, ?_, mk_ne_empty hne,
      mk_ne_empty (matchDur_ne_nil hd), mk_ne_empty (matchTP_ne_nil ht)⟩
    simp [parseRunId, hst, hd, ht]
  · intro s h
    rcases h with h | h | h
    · simp [parseRunId, h]
    · cases hst : matchStorm (pyLower s) <;> simp [parseRunId, hst, h]
    · cases hst : matchStorm (pyLower s) <;>
        cases hd : matchDur (pyLower s) <;> simp [parseRunId, hst, hd, h]

/-- Witness for C4: the theorem applied to a concrete filename with all
three tokens, and to one lacking them. -/
theorem c4_run_identity_witness :
    (∃ ev du tp, parseRunId "Example_010.0Y_10m_tp01_001_PO.csv" =
        some (ev, du, tp) ∧ ev ≠ "" ∧ du ≠ "" ∧ tp ≠ "") ∧
    parseRunId "no-tokens.csv" = none :=
  ⟨c4_run_identity.1 "Example_010.0Y_10m_tp01_001_PO.csv"
      ['_', '0', '1', '0', '.', '0', 'y', '_'] ['1', '0', 'm'] ['t', 'p', '0', '1']
      (by decide) (by decide) (by decide) (by decide),
   c4_run_identity.2.2 "no-tokens.csv" (Or.inl (by decide))⟩

/-! ## Digit and decimal round-trip lemmas -/

theorem digVal_digitChr {n : Nat} (h : n < 10) : digVal (digitChr n) = n := by
  interval_cases n <;> decide

theorem isDigit_digitChr {n : Nat} (h : n < 10) : (digitChr n).isDigit = true := by
  interval_cases n <;> decide

theorem digitChr_plain {n : Nat} (h : n < 10) :
    digitChr n ≠ '-' ∧ digitChr n ≠ '+' ∧ digitChr n ≠ ' ' ∧
    (digitChr n).isAlpha = false := by
  interval_cases n <;> decide

theorem natChars_spec (n : Nat) :
    natChars n ≠ [] ∧ ∀ c ∈ natChars n, ∃ k, k < 10 ∧ c = digitChr k := by
  induction n using Nat.strong_induction_on with
  | _ n ih =>
    rw [natChars]
    split
    · refine ⟨by simp, ?_⟩
      intro c hc
      simp only [List.mem_singleton] at hc
      exact ⟨n, by omega, hc⟩
    · have ihh := ih (n / 10) (Nat.div_lt_self (by omega) (by omega))
      refine ⟨by simp, ?_⟩
      intro c hc
      rcases List.mem_append.mp hc with h1 | h2
      · exact ihh.2 c h1
      · simp only [List.mem_singleton] at h2
        exact ⟨n % 10, Nat.mod_lt _ (by omega), h2⟩

theorem digitsVal_append_one (l : List Char) (c : Char) :
    digitsVal (l ++ [c]) = 10 * digitsVal l + digVal c := by
  simp [digitsVal, List.foldl_append]

theorem digitsVal_natChars (n : Nat) : digitsVal (natChars n) = n := by
  induction n using Nat.strong_induction_on with
  | _ n ih =>
    rw [natChars]
    split
    · simp only [digitsVal, List.foldl_cons, List.foldl_nil]
      rw [Nat.mul_zero, Nat.zero_add, digVal_digitChr (by omega)]
    · rw [digitsVal_append_one, ih (n / 10) (Nat.div_lt_self (by omega) (by omega)),
        digVal_digitChr (Nat.mod_lt _ (by omega))]
      omega

theorem natChars_all_digits (n : Nat) : (natChars n).all Char.isDigit = true := by
  rw [List.all_eq_true]
  intro c hc
  obtain ⟨k, hk, rfl⟩ := (natChars_spec n).2 c hc
  exact isDigit_digitChr hk

theorem dropWhile_eq_self {p : Char → Bool} {l : List Char}
    (h : ∀ c ∈ l, p c = false) : l.dropWhile p = l := by
  cases l with
  | nil => rfl
  | cons c cs => rw [List.dropWhile_cons, h c (by simp)]; simp

theorem pyStr_no_space (n : Int) : ∀ c ∈ (pyStr n).data, ¬ c = ' ' := by
  intro c hc
  unfold pyStr at hc
  split at hc
  · replace hc : c ∈ '-' :: natChars n.natAbs := hc
    rcases List.mem_cons.mp hc with h | h
    · simp [h]
    · obtain ⟨k, hk, rfl⟩ := (natChars_spec _).2 c h
      exact (digitChr_plain hk).2.2.1
  · replace hc : c ∈ natChars n.natAbs := hc
    obtain ⟨k, hk, rfl⟩ := (natChars_spec _).2 c hc
    exact (digitChr_plain hk).2.2.1

theorem pyIntDigits_natChars (m : Nat) : pyIntDigits (natChars m) = some m := by
  unfold pyIntDigits
  rw [if_pos ⟨(natChars_spec m).1, natChars_all_digits m⟩, digitsVal_natChars]

theorem pyInt_pyStr (n : Int) : pyInt (pyStr n) = some n := by
  unfold pyInt
  have h1 : (pyStr n).data.dropWhile (fun c => decide (c = ' ')) = (pyStr n).data :=
    dropWhile_eq_self (fun c hc => by simpa using pyStr_no_space n c hc)
  have h2 : (pyStr n).data.reverse.dropWhile (fun c => decide (c = ' ')) =
      (pyStr n).data.reverse :=
    dropWhile_eq_self (fun c hc => by
      simpa using pyStr_no_space n c (List.mem_reverse.mp hc))
  rw [h1, h2, List.reverse_reverse]
  unfold pyStr
  split
  · show pyIntChars ('-' :: natChars n.natAbs) = some n
    rw [pyIntChars, if_pos rfl, pyIntDigits_natChars]
    simp only [Option.map_some', Int.ofNat_eq_coe, Option.some.injEq]
    omega
  · obtain ⟨c, ds, hds⟩ : ∃ c ds, natChars n.natAbs = c :: ds := by
      cases hnc : natChars n.natAbs with
      | nil => exact absurd hnc (natChars_spec _).1
      | cons c ds => exact ⟨c, ds, rfl⟩
    show pyIntChars (natChars n.natAbs) = some n
    obtain ⟨k, hk, hc⟩ := (natChars_spec n.natAbs).2 c (by rw [hds]; simp)
    rw [hds, pyIntChars, if_neg (by rw [hc]; exact (digitChr_plain hk).1),
      if_neg (by rw [hc]; exact (digitChr_plain hk).2.1), ← hds,
      pyIntDigits_natChars]
    simp only [Option.map_some', Int.ofNat_eq_coe, Option.some.injEq]
    omega

theorem stripAlpha_pyStr (n : Int) : stripAlpha (pyStr n) = pyStr n := by
  unfold stripAlpha
  have : (pyStr n).data.filter (fun c => ¬ c.isAlpha) = (pyStr n).data := by
    rw [List.filter_eq_self]
    intro c hc
    unfold pyStr at hc
    split at hc
    · replace hc : c ∈ '-' :: natChars n.natAbs := hc
      rcases List.mem_cons.mp hc with h | h
      · simp [h]
      · obtain ⟨k, hk, rfl⟩ := (natChars_spec _).2 c h
        simp [(digitChr_plain hk).2.2.2]
    · replace hc : c ∈ natChars n.natAbs := hc
      obtain ⟨k, hk, rfl⟩ := (natChars_spec _).2 c hc
      simp [(digitChr_plain hk).2.2.2]
  rw [this]

theorem durKey_pyStr (n : Int) : durKey (pyStr n) = some n := by
  rw [durKey, stripAlpha_pyStr]
  exact pyInt_pyStr n

/-! ## mapM over the Option monad -/

theorem mapM_option_isSome {α β : Type _} {f : α → Option β} :
    ∀ {l : List α}, (∀ a ∈ l, (f a).isSome = true) → ∃ r, l.mapM f = some r := by
  intro l
  induction l with
  | nil => exact fun _ => ⟨[], rfl⟩
  | cons a as ih =>
    intro h
    obtain ⟨b, hb⟩ := Option.isSome_iff_exists.mp (h a (by simp))
    obtain ⟨r, hr⟩ := ih (fun x hx => h x (by simp [hx]))
    exact ⟨b :: r, by rw [List.mapM_cons, hb, hr]; rfl⟩

theorem mapM_option_mem {α β : Type _} {f : α → Option β} :
    ∀ {l : List α} {r : List β}, l.mapM f = some r →
      ∀ b ∈ r, ∃ a ∈ l, f a = some b := by
  intro l
  induction l with
  | nil =>
    intro r h b hb
    cases h
    cases hb
  | cons a as ih =>
    intro r h b hb
    rw [List.mapM_cons] at h
    cases ha : f a with
    | none => rw [ha] at h; cases h
    | some b0 =>
      rw [ha] at h
      cases hm : as.mapM f with
      | none => rw [hm] at h; cases h
      | some rs =>
        rw [hm] at h
        have hr : r = b0 :: rs := by
          have := h.symm
          simpa using this
        subst hr
        rcases hb with _ | hb2
        · exact ⟨a, by simp, ha⟩
        · obtain ⟨a2, ha2, hfa2⟩ := ih hm b (by assumption)
          exact ⟨a2, by simp [ha2], hfa2⟩

theorem mapM_option_map_self {α β : Type _} {e : α → β} {f : β → Option α}
    (hf : ∀ a, f (e a) = some a) :
    ∀ (l : List α), (l.map e).mapM f = some l := by
  intro l
  induction l with
  | nil => rfl
  | cons a as ih =>
    rw [List.map_cons, List.mapM_cons, hf a, ih]
    rfl

/-! ## Claim C8: the duration-sort step -/

/-- **C8** (amended): `_drop_sort_duration` strips the ASCII letters (not all
non-numeric characters) from every label, converts the remainder with
`int()`, and sorts rows ascending by that integer; on labels for which the
conversion succeeds it returns a grid sorted ascending by the key, and
`["720m", "90m", "360m"]` sorts to `[90, 360, 720]` numerically. -/
theorem c8_duration_sort :
    (∀ (α : Type) (g : List (String × α)),
      (∀ p ∈ g, (durKey p.1).isSome = true) →
      ∃ out, dropSortDur g = some out ∧
        List.Pairwise keyLe out ∧
        ∀ q ∈ out, ∃ p ∈ g, durKey p.1 = some q.1 ∧ p.2 = q.2) ∧
    dropSortDur [("720m", 0), ("90m", 1), ("360m", 2)] =
      some [(90, 1), (360, 2), (720, 0)] := by
  refine ⟨?_, by decide⟩
  intro α g hg
  obtain ⟨keyed, hk⟩ :=
    mapM_option_isSome (f := fun p => (durKey p.1).map (fun n => (n, p.2)))
      (l := g) (fun p hp => by
        obtain ⟨n, hn⟩ := Option.isSome_iff_exists.mp (hg p hp)
        simp [hn])
  refine ⟨List.insertionSort keyLe keyed, ?_, ?_, ?_⟩
  · rw [dropSortDur, hk]
    rfl
  · exact List.sorted_insertionSort keyLe keyed
  · intro q hq
    have hqk : q ∈ keyed := (List.perm_insertionSort keyLe keyed).subset hq
    obtain ⟨p, hp, hfp⟩ := mapM_option_mem hk q hqk
    rcases Option.map_eq_some'.mp hfp with ⟨n, hn, hq2⟩
    exact ⟨p, hp, by rw [hn, ← hq2], by rw [← hq2]⟩

/-- Witness for C8: the general part applied to the concrete grid of the
spec's example. -/
theorem c8_duration_sort_witness :
    ∃ out, dropSortDur [("720m", (0 : Nat)), ("90m", 1), ("360m", 2)] = some out ∧
      List.Pairwise keyLe out ∧
      ∀ q ∈ out, ∃ p ∈ [("720m", (0 : Nat)), ("90m", 1), ("360m", 2)],
        durKey p.1 = some q.1 ∧ p.2 = q.2 :=
  c8_duration_sort.1 Nat [("720m", 0), ("90m", 1), ("360m", 2)] (by decide)

/-- C8 counterexample: on the label `"9.5m"` the code strips only the
letters, leaving `"9.5"`, whose `int()` conversion raises — it does not strip
all non-numeric characters, which would give `95` and succeed. -/
theorem c8_duration_sort_counterexample :
    stripAlpha "9.5m" = "9.5" ∧ stripNonNumericSpec "9.5m" = "95" ∧
    dropSortDur [("9.5m", 0)] = none := by decide

/-! ## Claim C10: idempotence of the duration sort -/

/-- **C10**: a second application of `_drop_sort_duration` to a grid whose
index is already the normalized ascending integer durations returns the grid
unchanged; in particular any grid produced by a first application (as in
`all_critical_storms`, after `_tp_vs_max_flow_df`) is returned unchanged. -/
theorem c10_duration_sort_idempotent :
    (∀ (α : Type) (g : List (Int × α)), List.Pairwise keyLe g →
      dropSortDurZ g = some g) ∧
    (∀ (α : Type) (g : List (String × α)) (out : List (Int × α)),
      dropSortDur g = some out → dropSortDurZ out = some out) := by
  have main : ∀ (α : Type) (g : List (Int × α)), List.Pairwise keyLe g →
      dropSortDurZ g = some g := by
    intro α g hs
    rw [dropSortDurZ, dropSortDur,
      mapM_option_map_self (fun p => by
        cases p with
        | mk n a => simp [durKey_pyStr n])]
    show some (List.insertionSort keyLe g) = some g
    rw [List.Sorted.insertionSort_eq hs]
  refine ⟨main, ?_⟩
  intro α g out h
  apply main
  rw [dropSortDur] at h
  cases hm : g.mapM (fun p => (durKey p.1).map (fun n => (n, p.2))) with
  | none => rw [hm] at h; cases h
  | some keyed =>
    rw [hm] at h
    have : out = List.insertionSort keyLe keyed := by simpa using h.symm
    rw [this]
    exact List.sorted_insertionSort keyLe keyed

/-- Witness for C10: the theorem applied to a concrete already-sorted
integer-indexed grid. -/
theorem c10_duration_sort_idempotent_witness :
    dropSortDurZ [((90 : Int), "a"), (360, "b"), (720, "c")] =
      some [(90, "a"), (360, "b"), (720, "c")] :=
  c10_duration_sort_idempotent.1 String [(90, "a"), (360, "b"), (720, "c")]
    (by decide)

/-! ## Lemmas about the ingredients of `_get_crit_tp` -/

theorem hasSub_ne {a b : String} (ha : hasSub "tp" a = true)
    (hb : hasSub "tp" b = false) : a ≠ b := by
  intro h
  rw [h, hb] at ha
  cases ha

theorem lookupCell_append_right {lbl : String} {l1 l2 : Row}
    (h : ∀ p ∈ l1, p.1 ≠ lbl) : lookupCell lbl (l1 ++ l2) = lookupCell lbl l2 := by
  induction l1 with
  | nil => rfl
  | cons p rest ih =>
    rw [List.cons_append, lookupCell, if_neg (h p (by simp))]
    exact ih (fun q hq => h q (by simp [hq]))

theorem dropna_append (l1 l2 : Row) :
    dropna (l1 ++ l2) = dropna l1 ++ dropna l2 := by
  induction l1 with
  | nil => rfl
  | cons p rest ih =>
    cases p with
    | mk lb v => cases v <;> simp [dropna, ih]

theorem mem_dropna {c : String} {v : ℚ} : ∀ {l : Row},
    (c, v) ∈ dropna l ↔ (c, some v) ∈ l := by
  intro l
  induction l with
  | nil => simp [dropna]
  | cons p rest ih =>
    cases p with
    | mk lb w =>
      cases w with
      | none => simp [dropna, ih]
      | some u => simp [dropna, ih, Prod.ext_iff]

theorem dropna_keys_sublist : ∀ (l : Row),
    List.Sublist ((dropna l).map Prod.fst) (l.map Prod.fst) := by
  intro l
  induction l with
  | nil => simp [dropna]
  | cons p rest ih =>
    cases p with
    | mk lb w =>
      cases w with
      | none =>
        rw [dropna, List.map_cons]
        exact ih.cons _
      | some u =>
        rw [dropna, List.map_cons, List.map_cons]
        exact ih.cons₂ _

theorem getColName_mem {v : ℚ} : ∀ {l : List (String × ℚ)} {c : String},
    getColName v l = some c → (c, v) ∈ l := by
  intro l
  induction l with
  | nil => intro c h; cases h
  | cons p rest ih =>
    intro c h
    rw [getColName] at h
    split at h
    · cases h
      have : p = (p.1, v) := by
        cases p
        simp_all
      rw [this]
      exact List.mem_cons_self _ _
    · exact List.mem_cons_of_mem _ (ih h)

theorem getColName_isSome {v : ℚ} : ∀ {l : List (String × ℚ)},
    (∃ c, (c, v) ∈ l) → ∃ k, getColName v l = some k := by
  intro l
  induction l with
  | nil => rintro ⟨c, hc⟩; cases hc
  | cons p rest ih =>
    rintro ⟨c, hc⟩
    by_cases hp : p.2 = v
    · exact ⟨p.1, by rw [getColName, if_pos hp]⟩
    · rcases List.mem_cons.mp hc with heq | hmem
      · exact absurd (by rw [← heq]) hp
      · obtain ⟨k, hk⟩ := ih ⟨c, hmem⟩
        exact ⟨k, by rw [getColName, if_neg hp]; exact hk⟩

theorem getColName_append_left {v : ℚ} {l2 : List (String × ℚ)} :
    ∀ {l1 : List (String × ℚ)} {c : String},
    getColName v l1 = some c → getColName v (l1 ++ l2) = some c := by
  intro l1
  induction l1 with
  | nil => intro c h; cases h
  | cons p rest ih =>
    intro c h
    rw [getColName] at h
    rw [List.cons_append, getColName]
    split at h
    · rwa [if_pos (by assumption)]
    · rw [if_neg (by assumption)]
      exact ih h

theorem nodup_keys_val_eq : ∀ {l : List (String × ℚ)},
    (l.map Prod.fst).Nodup →
    ∀ {k : String} {v w : ℚ}, (k, v) ∈ l → (k, w) ∈ l → v = w := by
  intro l
  induction l with
  | nil => intro _ k v w hv; cases hv
  | cons p rest ih =>
    intro h k v w hv hw
    rw [List.map_cons, List.nodup_cons] at h
    rcases List.mem_cons.mp hv with heqv | hv2 <;>
      rcases List.mem_cons.mp hw with heqw | hw2
    · rw [← heqv] at heqw
      injection heqw with _ hw
      exact hw.symm
    · exfalso
      apply h.1
      rw [← heqv]
      exact List.mem_map.mpr ⟨(k, w), hw2, rfl⟩
    · exfalso
      apply h.1
      rw [← heqw]
      exact List.mem_map.mpr ⟨(k, v), hv2, rfl⟩
    · exact ih h.2 hv2 hw2

theorem self_mem_dictInsert (k : String) (v : ℚ) :
    ∀ (d : List (String × ℚ)), (k, v) ∈ dictInsert k v d := by
  intro d
  induction d with
  | nil => simp [dictInsert]
  | cons p rest ih =>
    rw [dictInsert]
    split
    · exact List.mem_cons_self _ _
    · exact List.mem_cons_of_mem _ ih

theorem mem_dictInsert_of_ne {q : String × ℚ} {k : String} (v : ℚ) :
    ∀ {d : List (String × ℚ)}, q ∈ d → q.1 ≠ k → q ∈ dictInsert k v d := by
  intro d
  induction d with
  | nil => intro hq; cases hq
  | cons p rest ih =>
    intro hq hne
    rw [dictInsert]
    split
    · rcases List.mem_cons.mp hq with rfl | hq2
      · exact absurd (by assumption) hne
      · exact List.mem_cons_of_mem _ hq2
    · rcases List.mem_cons.mp hq with rfl | hq2
      · exact List.mem_cons_self _ _
      · exact List.mem_cons_of_mem _ (ih hq2 hne)

theorem mem_dictInsert_elim {q : String × ℚ} {k : String} {v : ℚ} :
    ∀ {d : List (String × ℚ)}, q ∈ dictInsert k v d → q = (k, v) ∨ q ∈ d := by
  intro d
  induction d with
  | nil =>
    intro h
    rcases List.mem_cons.mp h with rfl | h2
    · exact Or.inl rfl
    · cases h2
  | cons p rest ih =>
    intro h
    rw [dictInsert] at h
    split at h
    · rcases List.mem_cons.mp h with rfl | h2
      · exact Or.inl rfl
      · exact Or.inr (List.mem_cons_of_mem _ h2)
    · rcases List.mem_cons.mp h with rfl | h2
      · exact Or.inr (List.mem_cons_self _ _)
      · rcases ih h2 with h3 | h3
        · exact Or.inl h3
        · exact Or.inr (List.mem_cons_of_mem _ h3)

theorem mem_positiveDiffs {q : String × ℚ} : ∀ {d : List (String × ℚ)},
    q ∈ positiveDiffs d ↔ q ∈ d ∧ 0 < q.2 := by
  intro d
  induction d with
  | nil => simp [positiveDiffs]
  | cons p rest ih =>
    rw [positiveDiffs]
    split
    · constructor
      · intro hq
        rcases List.mem_cons.mp hq with rfl | hq2
        · exact ⟨List.mem_cons_self _ _, by assumption⟩
        · have h2 := ih.mp hq2
          exact ⟨List.mem_cons_of_mem _ h2.1, h2.2⟩
      · rintro ⟨hq, hpos⟩
        rcases List.mem_cons.mp hq with rfl | hq2
        · exact List.mem_cons_self _ _
        · exact List.mem_cons_of_mem _ (ih.mpr ⟨hq2, hpos⟩)
    · constructor
      · intro hq
        have h2 := ih.mp hq
        exact ⟨List.mem_cons_of_mem _ h2.1, h2.2⟩
      · rintro ⟨hq, hpos⟩
        rcases List.mem_cons.mp hq with rfl | hq2
        · exact absurd hpos (by assumption)
        · exact ih.mpr ⟨hq2, hpos⟩

theorem minKeyGo_spec : ∀ (l : List (String × ℚ)) (best : String × ℚ),
    ∃ q, (q = best ∨ q ∈ l) ∧ minKeyGo best l = q.1 ∧ q.2 ≤ best.2 ∧
      ∀ r ∈ l, q.2 ≤ r.2 := by
  intro l
  induction l with
  | nil => intro best; exact ⟨best, Or.inl rfl, rfl, le_refl _, by simp⟩
  | cons p rest ih =>
    intro best
    rw [minKeyGo]
    split
    · obtain ⟨q, hq, hk, hle, hall⟩ := ih p
      refine ⟨q, ?_, hk, le_trans hle (le_of_lt (by assumption)), ?_⟩
      · rcases hq with rfl | h
        · exact Or.inr (List.mem_cons_self _ _)
        · exact Or.inr (List.mem_cons_of_mem _ h)
      · intro r hr
        rcases List.mem_cons.mp hr with rfl | hr2
        · exact hle
        · exact hall r hr2
    · obtain ⟨q, hq, hk, hle, hall⟩ := ih best
      refine ⟨q, ?_, hk, hle, ?_⟩
      · rcases hq with rfl | h
        · exact Or.inl rfl
        · exact Or.inr (List.mem_cons_of_mem _ h)
      · intro r hr
        rcases List.mem_cons.mp hr with rfl | hr2
        · exact le_trans hle (le_of_not_lt (by assumption))
        · exact hall r hr2

theorem minKey_spec {d : List (String × ℚ)} {k : String} (h : minKey d = some k) :
    ∃ q ∈ d, q.1 = k ∧ ∀ r ∈ d, q.2 ≤ r.2 := by
  cases d with
  | nil => cases h
  | cons p rest =>
    rw [minKey] at h
    obtain ⟨q, hq, hk, hle, hall⟩ := minKeyGo_spec rest p
    refine ⟨q, ?_, ?_, ?_⟩
    · rcases hq with rfl | h2
      · exact List.mem_cons_self _ _
      · exact List.mem_cons_of_mem _ h2
    · rw [← hk]
      exact Option.some.inj h
    · intro r hr
      rcases List.mem_cons.mp hr with rfl | hr2
      · exact hle
      · exact hall r hr2

theorem minKey_isSome {d : List (String × ℚ)} (h : d ≠ []) :
    ∃ k, minKey d = some k := by
  cases d with
  | nil => exact absurd rfl h
  | cons p rest => exact ⟨minKeyGo p rest, rfl⟩

theorem diffsLoop_isSome (m : ℚ) (dropped : List (String × ℚ)) :
    ∀ (vs : List ℚ) (d : List (String × ℚ)),
      (∀ v ∈ vs, ∃ k, getColName v dropped = some k) →
      ∃ out, diffsLoop m dropped vs d = some out := by
  intro vs
  induction vs with
  | nil => intro d _; exact ⟨d, rfl⟩
  | cons v vs ih =>
    intro d hall
    obtain ⟨k, hk⟩ := hall v (by simp)
    simp only [diffsLoop, hk]
    split
    · exact ih _ (fun u hu => hall u (by simp [hu]))
    · exact ih _ (fun u hu => hall u (by simp [hu]))

theorem diffsLoop_sound (m : ℚ) (dropped : List (String × ℚ)) :
    ∀ (vs : List ℚ) (d out : List (String × ℚ)),
      diffsLoop m dropped vs d = some out →
      (∀ q ∈ d, ∃ w, getColName w dropped = some q.1 ∧
        hasSub "tp" q.1 = true ∧ q.2 = w - m) →
      ∀ q ∈ out, ∃ w, getColName w dropped = some q.1 ∧
        hasSub "tp" q.1 = true ∧ q.2 = w - m := by
  intro vs
  induction vs with
  | nil =>
    intro d out h hd
    rw [diffsLoop] at h
    cases h
    exact hd
  | cons v vs ih =>
    intro d out h hd
    cases hk : getColName v dropped with
    | none => rw [diffsLoop, hk] at h; cases h
    | some cn =>
      simp only [diffsLoop, hk] at h
      split at h
      · refine ih _ _ h ?_
        intro q hq
        rcases mem_dictInsert_elim hq with rfl | hq2
        · exact ⟨v, hk, by assumption, rfl⟩
        · exact hd q hq2
      · exact ih _ _ h hd

theorem diffsLoop_keeps (m : ℚ) (dropped : List (String × ℚ))
    (hval : ∀ k v w, (k, v) ∈ dropped → (k, w) ∈ dropped → v = w) :
    ∀ (vs : List ℚ) (d out : List (String × ℚ)) (cn : String) (v : ℚ),
      diffsLoop m dropped vs d = some out →
      (cn, v) ∈ dropped → (cn, v - m) ∈ d →
      (cn, v - m) ∈ out := by
  intro vs
  induction vs with
  | nil =>
    intro d out cn v h hdrop hmem
    rw [diffsLoop] at h
    cases h
    exact hmem
  | cons u vs ih =>
    intro d out cn v h hdrop hmem
    cases hk : getColName u dropped with
    | none => rw [diffsLoop, hk] at h; cases h
    | some k =>
      simp only [diffsLoop, hk] at h
      split at h
      · by_cases hkc : k = cn
        · subst hkc
          have hu : u = v := hval k u v (getColName_mem hk) hdrop
          subst hu
          exact ih _ _ _ _ h hdrop (self_mem_dictInsert _ _ _)
        · exact ih _ _ _ _ h hdrop
            (mem_dictInsert_of_ne _ hmem (fun hc => hkc hc.symm))
      · exact ih _ _ _ _ h hdrop hmem

theorem diffsLoop_complete (m : ℚ) (dropped : List (String × ℚ))
    (hval : ∀ k v w, (k, v) ∈ dropped → (k, w) ∈ dropped → v = w) :
    ∀ (vs : List ℚ) (d out : List (String × ℚ)),
      diffsLoop m dropped vs d = some out →
      ∀ (v : ℚ) (cn : String), v ∈ vs → getColName v dropped = some cn →
        hasSub "tp" cn = true → (cn, v - m) ∈ out := by
  intro vs
  induction vs with
  | nil =>
    intro d out _ v cn hv
    cases hv
  | cons u vs ih =>
    intro d out h v cn hv hcn htp
    cases hk : getColName u dropped with
    | none => rw [diffsLoop, hk] at h; cases h
    | some k =>
      simp only [diffsLoop, hk] at h
      rcases List.mem_cons.mp hv with rfl | hv2
      · have hkcn : k = cn := Option.some.inj (hk.symm.trans hcn)
        subst hkcn
        rw [if_pos htp] at h
        exact diffsLoop_keeps m dropped hval vs _ out k v h
          (getColName_mem hcn) (self_mem_dictInsert _ _ _)
      · split at h
        · exact ih _ _ h v cn hv2 hcn htp
        · exact ih _ _ h v cn hv2 hcn htp

/-! ## Claim C1: the critical temporal pattern -/

/-- **C1**: for every storm-grid row (temporal-pattern cells, whose labels
contain `"tp"` and are distinct, followed by the appended `Average` and
`Median` columns) with a numeric Median `m`: if some present
temporal-pattern value exceeds `m`, `_get_crit_tp` returns a
temporal-pattern column whose value exceeds `m` with the smallest positive
excess over `m` (missing cells excluded); if no present value exceeds `m`
it returns the sentinel `"NA"`; and on the spec's example row with
Median = 10 and values `{tp01: 8, tp02: 10, tp03: 12, tp04: 15}` it
returns `"tp03"`. -/
theorem c1_critical_tp :
    (∀ (tps : Row) (avg : Option ℚ) (m : ℚ),
      (∀ p ∈ tps, hasSub "tp" p.1 = true) →
      (tps.map Prod.fst).Nodup →
      ((∃ p ∈ tps, ∃ v, p.2 = some v ∧ m < v) →
        ∃ c vc, getCritTp (tps ++ [("Average", avg), ("Median", some m)]) = some c ∧
          (c, some vc) ∈ tps ∧ m < vc ∧
          ∀ q ∈ tps, ∀ w, q.2 = some w → m < w → vc - m ≤ w - m) ∧
      ((∀ p ∈ tps, ∀ v, p.2 = some v → v ≤ m) →
        getCritTp (tps ++ [("Average", avg), ("Median", some m)]) = some "NA")) ∧
    getCritTp [("tp01", some 8), ("tp02", some 10), ("tp03", some 12),
      ("tp04", some 15), ("Average", some (45/4)), ("Median", some 10)] =
      some "tp03" := by
  constructor
  · intro tps avg m htp hnd
    have hAvg : hasSub "tp" "Average" = false := by decide
    have hMed : hasSub "tp" "Median" = false := by decide
    set row : Row := tps ++ [("Average", avg), ("Median", some m)] with hrow
    have hlook : lookupCell "Median" row = some (some m) := by
      rw [hrow, lookupCell_append_right (fun p hp => hasSub_ne (htp p hp) hMed)]
      simp [lookupCell]
    have hdropapp : dropna row = dropna tps ++ dropna [("Average", avg), ("Median", some m)] := by
      rw [hrow]
      exact dropna_append _ _
    have hkeysrow : (row.map Prod.fst).Nodup := by
      rw [hrow, List.map_append]
      refine List.Nodup.append hnd ?_ ?_
      · simp
      · intro a ha hb
        obtain ⟨p, hp, hpa⟩ := List.mem_map.mp ha
        have htpa : hasSub "tp" a = true := hpa ▸ htp p hp
        have : a = "Average" ∨ a = "Median" := by
          simpa using hb
        rcases this with rfl | rfl
        · rw [hAvg] at htpa; cases htpa
        · rw [hMed] at htpa; cases htpa
    have hvalrow : ∀ k v w, (k, v) ∈ dropna row → (k, w) ∈ dropna row → v = w :=
      fun _ _ _ hv hw =>
        nodup_keys_val_eq ((dropna_keys_sublist row).nodup hkeysrow) hv hw
    have htot : ∀ u ∈ (dropna row).map (fun p => p.2),
        ∃ k, getColName u (dropna row) = some k := by
      intro u hu
      obtain ⟨q, hq, hqu⟩ := List.mem_map.mp hu
      refine getColName_isSome ⟨q.1, ?_⟩
      rw [← hqu]
      exact hq
    obtain ⟨out, hout⟩ :=
      diffsLoop_isSome m (dropna row) ((dropna row).map (fun p => p.2)) [] htot
    -- every temporal-pattern cell of the row contributes its excess to `out`
    have hentry : ∀ (c0 : String) (w : ℚ), (c0, w) ∈ dropna tps →
        ∃ cn, hasSub "tp" cn = true ∧ (cn, w - m) ∈ out := by
      intro c0 w hc0
      obtain ⟨cn, hcn⟩ := getColName_isSome (l := dropna tps) ⟨c0, hc0⟩
      have hcn2 : getColName w (dropna row) = some cn := by
        rw [hdropapp]
        exact getColName_append_left hcn
      have hcnm : (cn, w) ∈ dropna tps := getColName_mem hcn
      have htpcn : hasSub "tp" cn = true := by
        have := mem_dropna.mp hcnm
        exact htp (cn, some w) this
      have hwvs : w ∈ (dropna row).map (fun p => p.2) := by
        refine List.mem_map.mpr ⟨(c0, w), ?_, rfl⟩
        rw [hdropapp]
        exact List.mem_append_left _ hc0
      exact ⟨cn, htpcn,
        diffsLoop_complete m (dropna row) hvalrow _ _ _ hout w cn hwvs hcn2 htpcn⟩
    -- every entry of `out` comes from a temporal-pattern cell
    have hback : ∀ q ∈ out, ∃ w, (q.1, some w) ∈ tps ∧ q.2 = w - m := by
      intro q hq
      obtain ⟨w, hwcol, hwtp, hwq⟩ := diffsLoop_sound m (dropna row) _ [] out hout
        (fun q hq => absurd hq (List.not_mem_nil q)) q hq
      have hmemrow := getColName_mem hwcol
      rw [hdropapp] at hmemrow
      rcases List.mem_append.mp hmemrow with h1 | h2
      · exact ⟨w, mem_dropna.mp h1, hwq⟩
      · exfalso
        have : q.1 = "Average" ∨ q.1 = "Median" := by
          cases avg <;> simp [dropna] at h2 <;> tauto
        rcases this with h | h
        · rw [h, hAvg] at hwtp; cases hwtp
        · rw [h, hMed] at hwtp; cases hwtp
    constructor
    · rintro ⟨p, hp, v, hpv, hmv⟩
      have hpd : (p.1, v) ∈ dropna tps := by
        refine mem_dropna.mpr ?_
        rw [← hpv]
        exact hp
      obtain ⟨cn, htpcn, hmem⟩ := hentry p.1 v hpd
      have hpos : (cn, v - m) ∈ positiveDiffs out :=
        mem_positiveDiffs.mpr ⟨hmem, by simpa using sub_pos.mpr hmv⟩
      have hpne : positiveDiffs out ≠ [] := by
        intro hnil
        rw [hnil] at hpos
        cases hpos
      obtain ⟨k, hk⟩ := minKey_isSome hpne
      obtain ⟨q, hqmem, hqk, hqmin⟩ := minKey_spec hk
      have hq_out : q ∈ out := (mem_positiveDiffs.mp hqmem).1
      have hq_pos : (0 : ℚ) < q.2 := (mem_positiveDiffs.mp hqmem).2
      obtain ⟨w, hw_tps, hwq⟩ := hback q hq_out
      have hmw : m < w := by
        rw [hwq] at hq_pos
        linarith
      refine ⟨k, w, ?_, hqk ▸ hw_tps, hmw, ?_⟩
      · simp only [getCritTp, hlook, hout, hk]
      · intro q' hq' w' hq'w hmw'
        have hd' : (q'.1, w') ∈ dropna tps := by
          refine mem_dropna.mpr ?_
          rw [← hq'w]
          exact hq'
        obtain ⟨cn', htp', hmem'⟩ := hentry q'.1 w' hd'
        have hpos' : (cn', w' - m) ∈ positiveDiffs out :=
          mem_positiveDiffs.mpr ⟨hmem', by simpa using sub_pos.mpr hmw'⟩
        have hle := hqmin _ hpos'
        rw [hwq] at hle
        exact hle
    · intro hall
      have hposnil : positiveDiffs out = [] := by
        rw [List.eq_nil_iff_forall_not_mem]
        intro q hq
        have h1 := mem_positiveDiffs.mp hq
        obtain ⟨w, hw_tps, hwq⟩ := hback q h1.1
        have hwle : w ≤ m := hall (q.1, some w) hw_tps w rfl
        have := h1.2
        rw [hwq] at this
        linarith
      simp only [getCritTp, hlook, hout, hposnil, minKey]
  · simp [getCritTp, lookupCell, dropna, diffsLoop, getColName, dictInsert,
      positiveDiffs, minKeyGo, minKey, hasSub, subsList, startsList]
    norm_num [dictInsert, positiveDiffs, minKeyGo, minKey, subsList, startsList]
    simp [dictInsert, positiveDiffs, minKeyGo, minKey, subsList, startsList]
    norm_num [dictInsert, positiveDiffs, minKeyGo, minKey, subsList, startsList]

/-- Witness for C1: the general statement applied to the spec's example row
(tp01..tp04 with values 8, 10, 12, 15 and Median 10). -/
theorem c1_critical_tp_witness :
    ∃ c vc,
      getCritTp ([("tp01", some 8), ("tp02", some 10), ("tp03", some 12),
          ("tp04", some 15)] ++ [("Average", some (45/4)), ("Median", some 10)]) =
        some c ∧
      (c, some vc) ∈ [("tp01", some (8:ℚ)), ("tp02", some 10), ("tp03", some 12),
          ("tp04", some 15)] ∧
      (10:ℚ) < vc ∧
      ∀ q ∈ [("tp01", some (8:ℚ)), ("tp02", some 10), ("tp03", some 12),
          ("tp04", some 15)], ∀ w, q.2 = some w → 10 < w → vc - 10 ≤ w - 10 :=
  ((c1_critical_tp.1 [("tp01", some 8), ("tp02", some 10), ("tp03", some 12),
      ("tp04", some 15)] (some (45/4)) 10 (by decide) (by decide)).1
    ⟨("tp03", some 12),
      List.mem_cons_of_mem _ (List.mem_cons_of_mem _ (List.mem_cons_self _ _)),
      12, rfl, by norm_num⟩)

/-! ## Claim C7: the peak extractor -/

theorem maxQ_spec : ∀ (l : List ℚ),
    (maxQ l = none ↔ l = []) ∧
    ∀ M, maxQ l = some M → M ∈ l ∧ ∀ v ∈ l, v ≤ M := by
  intro l
  induction l with
  | nil => exact ⟨by simp [maxQ], fun M h => by cases h⟩
  | cons v vs ih =>
    constructor
    · constructor
      · intro h
        rw [maxQ] at h
        cases hm : maxQ vs <;> rw [hm] at h <;> cases h
      · intro h
        cases h
    · intro M h
      rw [maxQ] at h
      cases hm : maxQ vs with
      | none =>
        rw [hm] at h
        injection h with h'
        subst h'
        have hnil : vs = [] := ih.1.mp hm
        subst hnil
        exact ⟨List.mem_cons_self _ _, by simp⟩
      | some w =>
        rw [hm] at h
        injection h with h'
        subst h'
        obtain ⟨hwmem, hwall⟩ := ih.2 w hm
        constructor
        · split
          · exact List.mem_cons_of_mem _ hwmem
          · exact List.mem_cons_self _ _
        · intro u hu
          rcases List.mem_cons.mp hu with rfl | hu2
          · split
            · exact le_of_lt (by assumption)
            · exact le_refl _
          · have hle := hwall u hu2
            split
            · exact hle
            · exact le_trans hle (le_of_not_lt (by assumption))

/-- **C7**: the peak extractor coerces every cell of each `"Flow"`-labelled
column to numeric — missing and non-numeric cells become `NaN`, never an
exception (`toNumeric`/`maxFlow` are total functions) — and returns the
column maximum over the coerced values, ignoring the missing ones; every
column whose label contains `"Flow"` is so processed; and the column
`[3, 7, missing, 2]` yields 7. -/
theorem c7_peak_extractor :
    (∀ (cells : List (Option String)),
      (maxFlow cells = none ↔ cells.filterMap (fun c => c.bind toNumeric) = []) ∧
      ∀ M, maxFlow cells = some M →
        M ∈ cells.filterMap (fun c => c.bind toNumeric) ∧
        ∀ v ∈ cells.filterMap (fun c => c.bind toNumeric), v ≤ M) ∧
    (∀ (cols : List (String × List (Option String))),
      maxFlowsLoop cols =
        (cols.filter (fun p => hasSub "Flow" p.1)).map (fun p => (p.1, maxFlow p.2))) ∧
    maxFlow [some "3", some "7", none, some "2"] = some 7 := by
  refine ⟨?_, ?_, ?_⟩
  · intro cells
    exact ⟨(maxQ_spec _).1, fun M h => (maxQ_spec _).2 M h⟩
  · intro cols
    induction cols with
    | nil => rfl
    | cons p rest ih =>
      by_cases hc : hasSub "Flow" p.1 = true
      · simp [maxFlowsLoop, List.filter_cons, hc, ih]
      · simp [maxFlowsLoop, List.filter_cons, hc, ih]
  · simp [maxFlow, maxQ, toNumeric, decSign, decCore, splitDot, digitsVal, digVal]
    norm_num [maxQ]

/-- Witness for C7: the max-property part applied to the concrete column of
the spec's example. -/
theorem c7_peak_extractor_witness :
    (7 : ℚ) ∈ ([some "3", some "7", none, some "2"].filterMap
        (fun c => c.bind toNumeric)) ∧
      ∀ v ∈ ([some "3", some "7", none, some "2"].filterMap
        (fun c => c.bind toNumeric)), v ≤ (7 : ℚ) :=
  (c7_peak_extractor.1 [some "3", some "7", none, some "2"]).2 7
    c7_peak_extractor.2.2

/-! ## Claim C6: empty-input handling in `copy_po_csvs` -/

theorem skippedFilter_cons (raws m : List String) (b : String)
    (h : ∀ r ∈ raws, r ≠ b) :
    raws.filter (fun r => ¬ r ∈ b :: m) = raws.filter (fun r => ¬ r ∈ m) := by
  apply List.filter_congr
  intro r hr
  simp [List.mem_cons, h r hr]

theorem skipped_of_kept : ∀ (files : List (String × CsvFile)),
    (files.map (fun nf => baseName nf.1)).Nodup →
    skippedInputs (files.map Prod.fst)
        ((files.filter (fun nf => !emptyData nf.2)).map Prod.fst) =
      (files.filter (fun nf => emptyData nf.2)).map (fun nf => baseName nf.1) := by
  intro files
  induction files with
  | nil => intro _; rfl
  | cons nf rest ih =>
    intro hnd
    rw [List.map_cons, List.nodup_cons] at hnd
    have hbase_sub : ∀ r,
        r ∈ ((rest.filter (fun q => !emptyData q.2)).map Prod.fst).map baseName →
        r ∈ rest.map (fun q => baseName q.1) := by
      intro r hr
      rw [List.map_map] at hr
      obtain ⟨q, hq, rfl⟩ := List.mem_map.mp hr
      exact List.mem_map.mpr ⟨q, List.mem_of_mem_filter hq, rfl⟩
    have htail := ih hnd.2
    unfold skippedInputs at htail
    by_cases he : emptyData nf.2 = true
    · have hstep :
          (nf :: rest).filter (fun q => !emptyData q.2) =
            rest.filter (fun q => !emptyData q.2) := by
        rw [List.filter_cons]
        simp [he]
      have hstep2 :
          (nf :: rest).filter (fun q => emptyData q.2) =
            nf :: rest.filter (fun q => emptyData q.2) := by
        rw [List.filter_cons]
        simp [he]
      rw [hstep, hstep2]
      unfold skippedInputs
      simp only [List.map_cons, List.filter_cons]
      have hc : ¬ baseName nf.1 ∈
          ((rest.filter (fun q => !emptyData q.2)).map Prod.fst).map baseName :=
        fun hmem => hnd.1 (hbase_sub _ hmem)
      rw [if_pos (by simpa using hc), htail]
    · have hstep :
          (nf :: rest).filter (fun q => !emptyData q.2) =
            nf :: rest.filter (fun q => !emptyData q.2) := by
        rw [List.filter_cons]
        simp [he]
      have hstep2 :
          (nf :: rest).filter (fun q => emptyData q.2) =
            rest.filter (fun q => emptyData q.2) := by
        rw [List.filter_cons]
        simp [he]
      rw [hstep, hstep2]
      unfold skippedInputs
      simp only [List.map_cons, List.filter_cons]
      rw [if_neg (by simp)]
      rw [skippedFilter_cons _ _ _ ?hne, htail]
      case hne =>
        intro r hr hre
        apply hnd.1
        rw [← hre]
        rw [List.map_map] at hr
        obtain ⟨q, hq, rfl⟩ := List.mem_map.mp hr
        exact List.mem_map.mpr ⟨q, hq, rfl⟩

/-- **C6** (amended): a candidate file with no parseable content (every row
blank) is excluded by `copy_po_csvs` before normalization and, when base
names are distinct, recorded by `_skipped_inputs` via base-name set
difference, while the remaining files are kept in order and processing
continues.  (A file with a header row but no data rows is NOT excluded —
see the counterexample.) -/
theorem c6_empty_input_handling :
    ∀ (files : List (String × CsvFile)),
      (∀ nf ∈ files, nf.2 ≠ []) →
      copyPoCsvs files = some (files.filter (fun nf => !emptyData nf.2)) ∧
      ((files.map (fun nf => baseName nf.1)).Nodup →
        skippedInputs (files.map Prod.fst)
            ((files.filter (fun nf => !emptyData nf.2)).map Prod.fst) =
          (files.filter (fun nf => emptyData nf.2)).map
            (fun nf => baseName nf.1)) := by
  intro files hne
  refine ⟨?_, skipped_of_kept files⟩
  induction files with
  | nil => rfl
  | cons nf rest ih =>
    have hhl : ∃ n, headerLength nf.2 = some n := by
      cases hf : nf.2 with
      | nil => exact absurd hf (hne nf (by simp))
      | cons r rows => exact ⟨r.length, by simp [headerLength, hf]⟩
    obtain ⟨n, hn⟩ := hhl
    have ihh := ih (fun q hq => hne q (by simp [hq]))
    by_cases he : emptyData nf.2 = true
    · have hkeep : keepFile nf.2 = some false := by
        rw [keepFile, hn, he]
        rfl
      rw [copyPoCsvs, hkeep, ihh, List.filter_cons]
      simp [he]
    · have hkeep : keepFile nf.2 = some true := by
        rw [keepFile, hn]
        simp [he]
      rw [copyPoCsvs, hkeep, ihh, List.filter_cons]
      simp [he]

/-- C6 counterexample: a candidate file containing only a header row (no
data rows) is NOT excluded — `pd.read_csv` parses its single row fine under
`header=None`, so `copy_po_csvs` keeps it and `_skipped_inputs` records
nothing, contradicting the claim that such a file is excluded and recorded
as skipped. -/
theorem c6_empty_input_counterexample :
    copyPoCsvs [("h_PO.csv", [["x", "Time", "Flow", "Flow"]])] =
      some [("h_PO.csv", [["x", "Time", "Flow", "Flow"]])] ∧
    skippedInputs ["h_PO.csv"] ["h_PO.csv"] = [] := by decide

/-- Witness for C6: the theorem applied to a concrete batch with one
parseable-content-free file between two normal ones. -/
theorem c6_empty_input_handling_witness :
    copyPoCsvs [("a_PO.csv", [["x", "Flow"], ["x", "1"]]), ("b_PO.csv", [[]]),
        ("c_PO.csv", [["y", "Flow"], ["y", "2"]])] =
      some [("a_PO.csv", [["x", "Flow"], ["x", "1"]]),
        ("c_PO.csv", [["y", "Flow"], ["y", "2"]])] ∧
    skippedInputs ["a_PO.csv", "b_PO.csv", "c_PO.csv"] ["a_PO.csv", "c_PO.csv"] =
      ["b_PO.csv"] := by
  have h := c6_empty_input_handling
    [("a_PO.csv", [["x", "Flow"], ["x", "1"]]), ("b_PO.csv", [[]]),
      ("c_PO.csv", [["y", "Flow"], ["y", "2"]])] (by decide)
  exact ⟨h.1, by decide⟩

/-! ## Claim C3: the normalizer's table dimensions -/

theorem headerCol_lt : ∀ {f : CsvFile} {hc : Nat},
    headerCol f = some hc → hc < f.length := by
  intro f
  induction f with
  | nil => intro hc h; cases h
  | cons r rest ih =>
    intro hc h
    rw [headerCol] at h
    split at h
    · cases h
      simp
    · cases hrec : headerCol rest with
      | none => rw [hrec] at h; cases h
      | some k =>
        rw [hrec] at h
        cases h
        have := ih hrec
        simp
        omega

theorem length_filter_ne_count (a : Option String) :
    ∀ (L : List (Option String)),
    (L.filter (fun x => ¬ x = a)).length = L.length - L.count a := by
  intro L
  induction L with
  | nil => rfl
  | cons b rest ih =>
    have hcle := List.count_le_length a rest
    rw [List.filter_cons, List.count_cons]
    by_cases hb : b = a
    · subst hb
      rw [if_neg (by simp), ih]
      simp
    · rw [if_pos (by simp [hb]), List.length_cons, ih]
      have hbeq : (b == a) = false := by simp [hb]
      rw [hbeq]
      simp
      omega

theorem map_fst_filter_label (a : Option String) :
    ∀ (cols : List (Option String × List (Option String))),
    (cols.filter (fun c => ¬ c.1 = a)).map Prod.fst =
      (cols.map Prod.fst).filter (fun x => ¬ x = a) := by
  intro cols
  induction cols with
  | nil => rfl
  | cons c rest ih =>
    by_cases hc : c.1 = a
    · rw [List.filter_cons, List.map_cons, List.filter_cons,
        if_neg (by simp [hc]), if_neg (by simp [hc])]
      exact ih
    · rw [List.filter_cons, List.map_cons, List.filter_cons,
        if_pos (by simp [hc]), if_pos (by simp [hc]), List.map_cons, ih]

theorem length_filter_pairs (a : Option String)
    (cols : List (Option String × List (Option String))) :
    (cols.filter (fun c => ¬ c.1 = a)).length =
      ((cols.map Prod.fst).filter (fun x => ¬ x = a)).length := by
  rw [← map_fst_filter_label, List.length_map]

/-- **C3** (amended): for every file accepted by the normalizer the row
count of the table is the file's total row count minus 1 — only the header
row is dropped, so the claimed `total − (header index + 1)` holds exactly
when the header is the first row — and, when the first label and the
subsequent index label each occur once among the header labels, the column
count is the first row's width minus 2. -/
theorem c3_normalizer :
    ∀ (name : String) (f : CsvFile) (t : PoTable) (L : List (Option String)),
      parsePoCsv name f = some t → colLabels f = some L →
      t.index.length = f.length - 1 ∧
      (∀ hc, headerCol f = some hc → hc = 0 →
        t.index.length = f.length - (hc + 1)) ∧
      (∀ hl lbl0 lbl1, headerLength f = some hl →
        L.head? = some (some lbl0) → L.count (some lbl0) = 1 →
        (L.filter (fun x => ¬ x = some lbl0)).head? = some (some lbl1) →
        (L.filter (fun x => ¬ x = some lbl0)).count (some lbl1) = 1 →
        t.cols.length = hl - 2) := by
  intro name f t L hp hL
  rw [parsePoCsv] at hp
  cases hhl : headerLength f with
  | none => rw [hhl] at hp; cases hp
  | some hl =>
  rw [hhl] at hp
  simp only [Option.bind_eq_bind, Option.some_bind] at hp
  cases hhc : headerCol f with
  | none => rw [hhc] at hp; cases hp
  | some hc =>
  rw [hhc] at hp
  simp only [Option.some_bind] at hp
  cases hr : f.get? hc with
  | none => rw [hr] at hp; cases hp
  | some r =>
  rw [hr] at hp
  simp only [Option.some_bind] at hp
  cases hh0 : (buildCols f hl hc r).head? with
  | none => rw [hh0] at hp; cases hp
  | some h0 =>
  rw [hh0] at hp
  simp only [Option.some_bind] at hp
  cases hl0 : h0.1 with
  | none => rw [hl0] at hp; cases hp
  | some lbl0 =>
  rw [hl0] at hp
  simp only [Option.some_bind] at hp
  cases hh1 : ((buildCols f hl hc r).filter (fun c => ¬ c.1 = some lbl0)).head? with
  | none => rw [hh1] at hp; cases hp
  | some h1 =>
  rw [hh1] at hp
  simp only [Option.some_bind] at hp
  cases hl1 : h1.1 with
  | none => rw [hl1] at hp; cases hp
  | some lbl1 =>
  rw [hl1] at hp
  simp only [Option.some_bind] at hp
  have ht : t = ⟨name, h1.2,
      relabel (((buildCols f hl hc r).filter (fun c => ¬ c.1 = some lbl0)).filter
        (fun c => ¬ c.1 = some lbl1))⟩ := by
    cases hp
    rfl
  -- the label list assigned by `df.columns = df.iloc[head_col]`
  have hLval : L = (List.range hl).map (cellAt r) := by
    rw [colLabels, hhl] at hL
    simp only [Option.bind_eq_bind, Option.some_bind] at hL
    rw [hhc] at hL
    simp only [Option.some_bind] at hL
    rw [hr] at hL
    simp only [Option.some_bind, Option.pure_def] at hL
    exact (Option.some.inj hL).symm
  have hmapfst : (buildCols f hl hc r).map Prod.fst = L := by
    rw [hLval, buildCols, List.map_map]
    rfl
  have hclt : hc < f.length := headerCol_lt hhc
  constructor
  · -- row count
    have hmem1 : h1 ∈ (buildCols f hl hc r).filter (fun c => ¬ c.1 = some lbl0) :=
      List.mem_of_mem_head? hh1
    have hmem : h1 ∈ buildCols f hl hc r := List.mem_of_mem_filter hmem1
    rw [buildCols] at hmem
    obtain ⟨j, _, hj⟩ := List.mem_map.mp hmem
    have : h1.2 = (f.eraseIdx hc).map (fun rr => cellAt rr j) := by
      rw [← hj]
    rw [ht]
    show h1.2.length = f.length - 1
    rw [this, List.length_map, List.length_eraseIdx, if_pos hclt]
  · constructor
    · intro hc' hhc' hc0
      have heqc : hc' = hc := (Option.some.inj hhc').symm
      subst heqc
      subst hc0
      have hmem1 : h1 ∈ (buildCols f hl 0 r).filter (fun c => ¬ c.1 = some lbl0) :=
        List.mem_of_mem_head? hh1
      have hmem : h1 ∈ buildCols f hl 0 r := List.mem_of_mem_filter hmem1
      rw [buildCols] at hmem
      obtain ⟨j, _, hj⟩ := List.mem_map.mp hmem
      have h2 : h1.2 = (f.eraseIdx 0).map (fun rr => cellAt rr j) := by
        rw [← hj]
      rw [ht]
      show h1.2.length = f.length - (0 + 1)
      rw [h2, List.length_map, List.length_eraseIdx, if_pos hclt]
    · intro hl' lbl0' lbl1' hhl' hH0 hC0 hH1 hC1
      have hhl'' : hl = hl' := Option.some.inj hhl'
      subst hhl''
      -- identify the labels named in the hypotheses with the ones the code picked
      have hLhead : L.head? = some h0.1 := by
        rw [← hmapfst, List.head?_map, hh0]
        rfl
      have hlbl0 : lbl0 = lbl0' := by
        rw [hH0, hl0] at hLhead
        exact (Option.some.inj (Option.some.inj hLhead)).symm
      subst hlbl0
      have hfst1 : ((buildCols f hl hc r).filter (fun c => ¬ c.1 = some lbl0)).map Prod.fst =
          L.filter (fun x => ¬ x = some lbl0) := by
        rw [map_fst_filter_label, hmapfst]
      have hL1head : (L.filter (fun x => ¬ x = some lbl0)).head? = some h1.1 := by
        rw [← hfst1, List.head?_map, hh1]
        rfl
      have hlbl1 : lbl1 = lbl1' := by
        rw [hH1, hl1] at hL1head
        exact (Option.some.inj (Option.some.inj hL1head)).symm
      subst hlbl1
      -- count the columns
      rw [ht]
      show (relabel _).length = hl - 2
      rw [relabel, List.length_mapIdx, length_filter_pairs, hfst1,
        length_filter_ne_count, hC1, length_filter_ne_count, hC0]
      have hLlen : L.length = hl := by
        rw [hLval, List.length_map, List.length_range]
      rw [hLlen]
      omega

/-- C3 counterexample: a file whose `"Flow"` header is its second row (one
junk row above it) is accepted, but the junk row is kept as data: the table
has 3 rows, not `4 − (1 + 1) = 2` as the claim's row formula predicts.  The
column count 2 = 4 − 2 still matches. -/
theorem c3_normalizer_counterexample :
    (parsePoCsv "ex.csv" [["r0", "a", "b", "c"], ["r1", "Time", "Flow", "Flow"],
        ["r2", "0.0", "1", "2"], ["r3", "1.0", "3", "4"]]).map
      (fun t => (t.index.length, t.cols.length)) = some (3, 2) ∧
    headerCol [["r0", "a", "b", "c"], ["r1", "Time", "Flow", "Flow"],
        ["r2", "0.0", "1", "2"], ["r3", "1.0", "3", "4"]] = some 1 ∧
    ¬ (3 = 4 - (1 + 1)) := by decide

/-- Witness for C3: the theorem applied to a concrete file whose header is
the first row. -/
theorem c3_normalizer_witness :
    ∃ t, parsePoCsv "w.csv" [["w", "Time", "Flow"], ["w", "0", "1"], ["w", "1", "2"]] =
        some t ∧ t.index.length = 2 ∧ t.cols.length = 1 := by
  cases h : parsePoCsv "w.csv" [["w", "Time", "Flow"], ["w", "0", "1"], ["w", "1", "2"]] with
  | none => exact absurd h (by decide)
  | some t =>
    have hmain := c3_normalizer "w.csv"
      [["w", "Time", "Flow"], ["w", "0", "1"], ["w", "1", "2"]] t
      [some "w", some "Time", some "Flow"] h (by decide)
    refine ⟨t, rfl, ?_, ?_⟩
    · rw [hmain.1]
      rfl
    · rw [hmain.2.2 3 "w" "Time" (by decide) (by decide) (by decide)
        (by decide) (by decide)]


/-! ## Claim C2: the critical-storm summarizer -/

theorem nodup_keys_eq {α β : Type _} : ∀ {l : List (α × β)},
    (l.map Prod.fst).Nodup →
    ∀ {k : α} {v w : β}, (k, v) ∈ l → (k, w) ∈ l → v = w := by
  intro l
  induction l with
  | nil => intro _ k v w hv; cases hv
  | cons p rest ih =>
    intro h k v w hv hw
    rw [List.map_cons, List.nodup_cons] at h
    rcases List.mem_cons.mp hv with heqv | hv2 <;>
      rcases List.mem_cons.mp hw with heqw | hw2
    · rw [← heqv] at heqw
      injection heqw with _ hw'
      exact hw'.symm
    · exfalso
      apply h.1
      rw [← heqv]
      exact List.mem_map.mpr ⟨(k, w), hw2, rfl⟩
    · exfalso
      apply h.1
      rw [← heqw]
      exact List.mem_map.mpr ⟨(k, v), hv2, rfl⟩
    · exact ih h.2 hv2 hw2

theorem idxmaxGo_spec :
    ∀ (l : List (Int × List (String × Cell))) (best : Int × ℚ),
      (∀ p ∈ l, best.1 < p.1) →
      List.Pairwise (fun a b => a.1 < b.1) l →
      best.2 ≤ (idxmaxGo best l).2 ∧
      (idxmaxGo best l = best ∨
        ∃ p ∈ l, (idxmaxGo best l).1 = p.1 ∧ medOf p.2 = some (idxmaxGo best l).2 ∧
          best.2 < (idxmaxGo best l).2) ∧
      (∀ p ∈ l, ∀ m, medOf p.2 = some m → m ≤ (idxmaxGo best l).2) ∧
      (∀ p ∈ l, medOf p.2 = some (idxmaxGo best l).2 → (idxmaxGo best l).1 ≤ p.1) := by
  intro l
  induction l with
  | nil =>
    intro best _ _
    exact ⟨le_refl _, Or.inl rfl, by simp, by simp⟩
  | cons q rest ih =>
    intro best hlt hpw
    obtain ⟨d, r⟩ := q
    rw [List.pairwise_cons] at hpw
    cases hm : medOf r with
    | none =>
      have hstep : idxmaxGo best ((d, r) :: rest) = idxmaxGo best rest := by
        simp only [idxmaxGo, hm]
      obtain ⟨i1, i2, i3, i4⟩ :=
        ih best (fun p hp => hlt p (List.mem_cons_of_mem _ hp)) hpw.2
      rw [hstep]
      refine ⟨i1, ?_, ?_, ?_⟩
      · rcases i2 with heq | ⟨p, hp, h1, h2, h3⟩
        · exact Or.inl heq
        · exact Or.inr ⟨p, List.mem_cons_of_mem _ hp, h1, h2, h3⟩
      · intro p hp m' hm'
        rcases List.mem_cons.mp hp with heq | hp2
        · rw [heq] at hm'
          rw [hm'] at hm
          cases hm
        · exact i3 p hp2 m' hm'
      · intro p hp hm'
        rcases List.mem_cons.mp hp with heq | hp2
        · rw [heq] at hm'
          rw [hm'] at hm
          cases hm
        · exact i4 p hp2 hm'
    | some m =>
      by_cases hbm : best.2 < m
      · have hstep : idxmaxGo best ((d, r) :: rest) = idxmaxGo (d, m) rest := by
          simp only [idxmaxGo, hm]
          show (if best.2 < m then idxmaxGo (d, m) rest else idxmaxGo best rest) =
            idxmaxGo (d, m) rest
          rw [if_pos hbm]
        obtain ⟨i1, i2, i3, i4⟩ := ih (d, m) (fun p hp => hpw.1 p hp) hpw.2
        rw [hstep]
        refine ⟨le_trans (le_of_lt hbm) i1, ?_, ?_, ?_⟩
        · rcases i2 with heq | ⟨p, hp, h1, h2, h3⟩
          · refine Or.inr ⟨(d, r), List.mem_cons_self _ _, ?_, ?_, ?_⟩
            · rw [heq]
            · rw [heq]
              exact hm
            · rw [heq]
              exact hbm
          · exact Or.inr ⟨p, List.mem_cons_of_mem _ hp, h1, h2, lt_trans hbm h3⟩
        · intro p hp m' hm'
          rcases List.mem_cons.mp hp with heq | hp2
          · rw [heq] at hm'
            rw [hm'] at hm
            injection hm with hmm
            rw [hmm]
            exact i1
          · exact i3 p hp2 m' hm'
        · intro p hp hm'
          rcases List.mem_cons.mp hp with heq | hp2
          · rw [heq] at hm'
            rw [hm'] at hm
            injection hm with hmm
            rcases i2 with heq2 | ⟨p', _, _, _, h3'⟩
            · rw [heq2, heq]
            · exfalso
              have hcontr : m < m := by
                have h4 := h3'
                rw [hmm] at h4
                exact h4
              exact absurd hcontr (lt_irrefl _)
          · exact i4 p hp2 hm'
      · have hstep : idxmaxGo best ((d, r) :: rest) = idxmaxGo best rest := by
          simp only [idxmaxGo, hm]
          show (if best.2 < m then idxmaxGo (d, m) rest else idxmaxGo best rest) =
            idxmaxGo best rest
          rw [if_neg hbm]
        have hble : m ≤ best.2 := le_of_not_lt hbm
        obtain ⟨i1, i2, i3, i4⟩ :=
          ih best (fun p hp => hlt p (List.mem_cons_of_mem _ hp)) hpw.2
        rw [hstep]
        refine ⟨i1, ?_, ?_, ?_⟩
        · rcases i2 with heq | ⟨p, hp, h1, h2, h3⟩
          · exact Or.inl heq
          · exact Or.inr ⟨p, List.mem_cons_of_mem _ hp, h1, h2, h3⟩
        · intro p hp m' hm'
          rcases List.mem_cons.mp hp with heq | hp2
          · rw [heq] at hm'
            rw [hm'] at hm
            injection hm with hmm
            rw [hmm]
            exact le_trans hble i1
          · exact i3 p hp2 m' hm'
        · intro p hp hm'
          rcases List.mem_cons.mp hp with heq | hp2
          · rw [heq] at hm'
            rw [hm'] at hm
            injection hm with hmm
            rcases i2 with heq2 | ⟨p', _, _, _, h3'⟩
            · rw [heq2, heq]
              exact le_of_lt (hlt (d, r) (List.mem_cons_self _ _))
            · exfalso
              rw [← hmm] at hble
              exact absurd (lt_of_lt_of_le h3' hble) (lt_irrefl _)
          · exact i4 p hp2 hm'

theorem idxmaxMedian_spec :
    ∀ (rows : List (Int × List (String × Cell))),
      List.Pairwise (fun a b => a.1 < b.1) rows →
      ∀ D M, idxmaxMedian rows = some (D, M) →
      (∃ r, (D, r) ∈ rows ∧ medOf r = some M) ∧
      (∀ p ∈ rows, ∀ m, medOf p.2 = some m → m ≤ M) ∧
      (∀ p ∈ rows, medOf p.2 = some M → D ≤ p.1) := by
  intro rows
  induction rows with
  | nil => intro _ D M h; cases h
  | cons q rest ih =>
    obtain ⟨d, r⟩ := q
    intro hpw D M h
    rw [List.pairwise_cons] at hpw
    cases hm : medOf r with
    | none =>
      have hred : idxmaxMedian ((d, r) :: rest) = idxmaxMedian rest := by
        simp only [idxmaxMedian, hm]
      rw [hred] at h
      obtain ⟨e1, e2, e3⟩ := ih hpw.2 D M h
      refine ⟨?_, ?_, ?_⟩
      · obtain ⟨r', hr', hmr'⟩ := e1
        exact ⟨r', List.mem_cons_of_mem _ hr', hmr'⟩
      · intro p hp m' hm'
        rcases List.mem_cons.mp hp with heq | hp2
        · rw [heq] at hm'
          rw [hm'] at hm
          cases hm
        · exact e2 p hp2 m' hm'
      · intro p hp hm'
        rcases List.mem_cons.mp hp with heq | hp2
        · rw [heq] at hm'
          rw [hm'] at hm
          cases hm
        · exact e3 p hp2 hm'
    | some m =>
      have hred : idxmaxMedian ((d, r) :: rest) = some (idxmaxGo (d, m) rest) := by
        simp only [idxmaxMedian, hm]
      rw [hred] at h
      have hout : idxmaxGo (d, m) rest = (D, M) := Option.some.inj h
      obtain ⟨i1, i2, i3, i4⟩ := idxmaxGo_spec rest (d, m) (fun p hp => hpw.1 p hp) hpw.2
      rw [hout] at i1 i2 i3 i4
      refine ⟨?_, ?_, ?_⟩
      · rcases i2 with heq | ⟨p, hp, h1, h2, _⟩
        · injection heq with hD hM
          refine ⟨r, ?_, ?_⟩
          · rw [hD]
            exact List.mem_cons_self _ _
          · rw [hM]
            exact hm
        · refine ⟨p.2, ?_, h2⟩
          have hD : D = p.1 := h1
          rw [hD, Prod.mk.eta]
          exact List.mem_cons_of_mem _ hp
      · intro p hp m' hm'
        rcases List.mem_cons.mp hp with heq | hp2
        · rw [heq] at hm'
          rw [hm'] at hm
          injection hm with hmm
          rw [hmm]
          exact i1
        · exact i3 p hp2 m' hm'
      · intro p hp hm'
        rcases List.mem_cons.mp hp with heq | hp2
        · rw [heq] at hm'
          rw [hm'] at hm
          injection hm with hmm
          rcases i2 with heq2 | ⟨p', _, _, _, h3'⟩
          · injection heq2 with hD _
            rw [hD, heq]
          · rw [hmm] at h3'
            exact absurd h3' (lt_irrefl _)
        · exact i4 p hp2 hm'

theorem idxmaxMedian_isSome :
    ∀ (rows : List (Int × List (String × Cell))),
      (∃ p ∈ rows, ∃ m, medOf p.2 = some m) →
      ∃ D M, idxmaxMedian rows = some (D, M) := by
  intro rows
  induction rows with
  | nil => rintro ⟨p, hp, _⟩; cases hp
  | cons q rest ih =>
    obtain ⟨d, r⟩ := q
    rintro ⟨p, hp, m', hm'⟩
    cases hm : medOf r with
    | some m =>
      exact ⟨(idxmaxGo (d, m) rest).1, (idxmaxGo (d, m) rest).2,
        by simp only [idxmaxMedian, hm]⟩
    | none =>
      rcases List.mem_cons.mp hp with heq | hp2
      · rw [heq] at hm'
        rw [hm'] at hm
        cases hm
      · obtain ⟨D, M, hDM⟩ := ih ⟨p, hp2, m', hm'⟩
        exact ⟨D, M, by simp only [idxmaxMedian, hm]; exact hDM⟩

/-- **C2**: for every storm grid (rows strictly ascending in duration, at
least one numeric Median, string-valued `Critical TP` cells that name an
existing column unless `"NA"`), `summarize_results` picks the duration row
whose Median is maximal — ties resolved by the first occurrence, i.e. the
smallest duration —, reports that row's Critical TP, reports the value in
that row under that column unless the Critical TP is `"NA"` (then the flow
is `"NA"` too), and recovers event and location by splitting the grid's
identity tag at its first colon. -/
theorem c2_summarizer :
    ∀ (g : StormGrid) (ev rst : String),
      List.Pairwise (fun a b => a.1 < b.1) g.rows →
      splitColon g.name = some (ev, rst) →
      (∃ p ∈ g.rows, ∃ m, medOf p.2 = some m) →
      (∀ p ∈ g.rows, ∃ s, lookupG "Critical TP" p.2 = some (Cell.str s)) →
      (∀ p ∈ g.rows, ∀ s, lookupG "Critical TP" p.2 = some (Cell.str s) →
        ¬ s = "NA" → ∃ c, lookupG s p.2 = some c) →
      ∃ u r m, summarizeResults g = some u ∧
        (u.critDuration, r) ∈ g.rows ∧ medOf r = some m ∧
        (∀ p ∈ g.rows, ∀ m', medOf p.2 = some m' → m' ≤ m) ∧
        (∀ p ∈ g.rows, medOf p.2 = some m → u.critDuration ≤ p.1) ∧
        lookupG "Critical TP" r = some (Cell.str u.critTp) ∧
        (u.critTp = "NA" → u.critFlow = Cell.str "NA") ∧
        (¬ u.critTp = "NA" → lookupG u.critTp r = some u.critFlow) ∧
        u.event = ev ∧ u.poLine = removeAll "Max Flow " rst := by
  intro g ev rst hpw hsplit hmed hctp hflow
  obtain ⟨D, M, hDM⟩ := idxmaxMedian_isSome g.rows hmed
  obtain ⟨⟨r, hr, hmr⟩, hmax, hfirst⟩ := idxmaxMedian_spec g.rows hpw D M hDM
  have hnodup : (g.rows.map Prod.fst).Nodup := by
    have h2 : List.Pairwise (fun a b => a ≠ b) (g.rows.map Prod.fst) := by
      rw [List.pairwise_map]
      exact hpw.imp (fun h => ne_of_lt h)
    exact h2
  cases hfind : g.rows.find? (fun p => p.1 == D) with
  | none =>
    exfalso
    rw [List.find?_eq_none] at hfind
    exact hfind (D, r) hr (by simp)
  | some frow =>
  have hfrow1 : frow.1 = D := by
    have h3 := List.find?_some hfind
    simpa using h3
  have hfrowmem : frow ∈ g.rows := List.mem_of_find?_eq_some hfind
  have hDfrow : (D, frow.2) = frow := by
    rw [← hfrow1]
  have hfrow_eq : frow.2 = r := by
    refine nodup_keys_eq hnodup (k := D) ?_ hr
    rw [hDfrow]
    exact hfrowmem
  have hmr2 : medOf frow.2 = some M := by
    rw [hfrow_eq]
    exact hmr
  obtain ⟨s, hcs2⟩ := hctp frow hfrowmem
  by_cases hNA : s = "NA"
  · refine ⟨⟨ev, removeAll "Max Flow " rst, D, s, Cell.str "NA"⟩, frow.2, M, ?_,
      ?_, hmr2, hmax, hfirst, hcs2, fun _ => rfl, fun hn => absurd hNA hn, rfl, rfl⟩
    · rw [summarizeResults, hDM]
      simp only [Option.bind_eq_bind, Option.some_bind]
      show summarizeFrom g D = _
      rw [summarizeFrom, hfind]
      simp only [Option.map_some', Option.bind_eq_bind, Option.some_bind]
      rw [hcs2]
      simp only [Option.some_bind]
      rw [hsplit]
      simp only [Option.some_bind, critTpStr]
      rw [if_pos hNA]
      rfl
    · rw [hDfrow]
      exact hfrowmem
  · obtain ⟨c, hc⟩ := hflow frow hfrowmem s hcs2 hNA
    refine ⟨⟨ev, removeAll "Max Flow " rst, D, s, c⟩, frow.2, M, ?_,
      ?_, hmr2, hmax, hfirst, hcs2, fun he => absurd he hNA, fun _ => hc, rfl, rfl⟩
    · rw [summarizeResults, hDM]
      simp only [Option.bind_eq_bind, Option.some_bind]
      show summarizeFrom g D = _
      rw [summarizeFrom, hfind]
      simp only [Option.map_some', Option.bind_eq_bind, Option.some_bind]
      rw [hcs2]
      simp only [Option.some_bind]
      rw [hsplit]
      simp only [Option.some_bind, critTpStr]
      rw [if_neg hNA, hc]
      rfl
    · rw [hDfrow]
      exact hfrowmem

/-- Witness for C2: the theorem applied to a concrete two-row grid with
Medians 5 and 7: the summarizer must pick duration 360 (Median 7), Critical
TP `"tp01"` and flow 8. -/
theorem c2_summarizer_witness :
    ∃ u r m,
      summarizeResults
        ⟨"0.5ey: Max Flow PO1",
          [(90, [("tp01", Cell.num 5), ("Median", Cell.num 5),
            ("Critical TP", Cell.str "NA")]),
           (360, [("tp01", Cell.num 8), ("tp02", Cell.num 6),
            ("Median", Cell.num 7), ("Critical TP", Cell.str "tp01")])]⟩ = some u ∧
      (u.critDuration, r) ∈ [((90 : Int), [("tp01", Cell.num 5), ("Median", Cell.num 5),
            ("Critical TP", Cell.str "NA")]),
           (360, [("tp01", Cell.num 8), ("tp02", Cell.num 6),
            ("Median", Cell.num 7), ("Critical TP", Cell.str "tp01")])] ∧
      medOf r = some m ∧
      (∀ p ∈ [((90 : Int), [("tp01", Cell.num 5), ("Median", Cell.num 5),
            ("Critical TP", Cell.str "NA")]),
           (360, [("tp01", Cell.num 8), ("tp02", Cell.num 6),
            ("Median", Cell.num 7), ("Critical TP", Cell.str "tp01")])],
        ∀ m', medOf p.2 = some m' → m' ≤ m) ∧
      (∀ p ∈ [((90 : Int), [("tp01", Cell.num 5), ("Median", Cell.num 5),
            ("Critical TP", Cell.str "NA")]),
           (360, [("tp01", Cell.num 8), ("tp02", Cell.num 6),
            ("Median", Cell.num 7), ("Critical TP", Cell.str "tp01")])],
        medOf p.2 = some m → u.critDuration ≤ p.1) ∧
      lookupG "Critical TP" r = some (Cell.str u.critTp) ∧
      (u.critTp = "NA" → u.critFlow = Cell.str "NA") ∧
      (¬ u.critTp = "NA" → lookupG u.critTp r = some u.critFlow) ∧
      u.event = "0.5ey" ∧ u.poLine = removeAll "Max Flow " " Max Flow PO1" := by
  apply c2_summarizer
  · decide
  · decide
  · refine ⟨(360, [("tp01", Cell.num 8), ("tp02", Cell.num 6),
      ("Median", Cell.num 7), ("Critical TP", Cell.str "tp01")]),
      List.mem_cons_of_mem _ (List.mem_cons_self _ _), 7, by decide⟩
  · intro p hp
    rcases List.mem_cons.mp hp with heq | hp2
    · exact ⟨"NA", by rw [heq]; decide⟩
    · rcases List.mem_cons.mp hp2 with heq2 | hp3
      · exact ⟨"tp01", by rw [heq2]; decide⟩
      · cases hp3
  · intro p hp sx hsx hne
    rcases List.mem_cons.mp hp with heq | hp2
    · exfalso
      rw [heq] at hsx
      have hval : lookupG "Critical TP" [("tp01", Cell.num 5), ("Median", Cell.num 5),
          ("Critical TP", Cell.str "NA")] = some (Cell.str "NA") := by decide
      rw [hval] at hsx
      injection hsx with hsx2
      injection hsx2 with hsx3
      exact hne hsx3.symm
    · rcases List.mem_cons.mp hp2 with heq2 | hp3
      · rw [heq2] at hsx
        have hval : lookupG "Critical TP" [("tp01", Cell.num 8), ("tp02", Cell.num 6),
            ("Median", Cell.num 7), ("Critical TP", Cell.str "tp01")] =
            some (Cell.str "tp01") := by decide
        rw [hval] at hsx
        injection hsx with hsx2
        injection hsx2 with hsx3
        refine ⟨Cell.num 8, ?_⟩
        rw [heq2, ← hsx3]
        decide
      · cases hp3

/-! ## Claim C5: how the analyzer treats duplicate pairs and collapsing
durations -/

theorem mapM_trips_pairs (po : String) :
    ∀ (rows : List RunRow) (trips : List (String × String × Option ℚ)),
      rows.mapM (fun r => (lookupCell po r.flows).map (fun v => (r.duration, r.tp, v))) =
        some trips →
      trips.map (fun x => (x.1, x.2.1)) = rows.map (fun r => (r.duration, r.tp)) := by
  intro rows
  induction rows with
  | nil =>
    intro trips h
    cases h
    rfl
  | cons r rest ih =>
    intro trips h
    rw [List.mapM_cons] at h
    cases hl : lookupCell po r.flows with
    | none => rw [hl] at h; cases h
    | some v =>
      rw [hl] at h
      cases hm : rest.mapM
          (fun r => (lookupCell po r.flows).map (fun v => (r.duration, r.tp, v))) with
      | none => rw [hm] at h; cases h
      | some ts =>
        rw [hm] at h
        have hts : trips = (r.duration, r.tp, v) :: ts := by
          have h2 := h.symm
          simpa using h2
        subst hts
        rw [List.map_cons, List.map_cons, ih ts hm]

/-- **C5** (amended): the Storm-Space Analyzer fails the whole batch
whenever the filtered table contains a duplicate (duration,
temporal-pattern) pair — the pandas pivot raises and the exception
propagates; but duration labels that collapse to the same integer after
letter-stripping do NOT make it fail: the sorted grid keeps both rows under
the same integer index (see the counterexample). -/
theorem c5_analyzer_duplicate_pairs :
    ∀ (cols : List String) (rows : List RunRow),
      ¬ (rows.map (fun r => (r.duration, r.tp))).Nodup →
      tpVsMaxFlowDf cols rows = none := by
  intro cols rows hdup
  rw [tpVsMaxFlowDf]
  cases hev : (uniqueList (rows.map (fun r => r.event))).head? with
  | none => rfl
  | some ev =>
  simp only [Option.bind_eq_bind, Option.some_bind]
  cases hpo : lastMaxFlowCol cols with
  | none => rfl
  | some po =>
  simp only [Option.some_bind]
  cases htr : rows.mapM
      (fun r => (lookupCell po r.flows).map (fun v => (r.duration, r.tp, v))) with
  | none => rfl
  | some trips =>
  simp only [Option.some_bind]
  have hpg : pivotGrid trips = none := by
    rw [pivotGrid, if_neg]
    rw [mapM_trips_pairs po rows trips htr]
    exact hdup
  rw [hpg]
  rfl

/-- C5 counterexample: the distinct duration labels `"90m"` and `"90min"`
collapse to the same integer 90, yet the analyzer does not fail — the whole
`_tp_vs_max_flow_df` computation succeeds on a table containing both. -/
theorem c5_analyzer_counterexample :
    durKey "90m" = some 90 ∧ durKey "90min" = some 90 ∧ ("90m" : String) ≠ "90min" ∧
    (tpVsMaxFlowDf ["Run ID", "Event", "Duration", "Temporal Pattern", "Max Flow PO1"]
      [⟨"e", "90m", "tp01", [("Max Flow PO1", some 3)]⟩,
       ⟨"e", "90min", "tp01", [("Max Flow PO1", some 5)]⟩]).isSome = true := by
  refine ⟨by decide, by decide, by decide, ?_⟩
  simp [tpVsMaxFlowDf, uniqueList, lastMaxFlowCol, hasSub, subsList, startsList,
    lookupCell, pivotGrid, tripCell, dropSortDur, durKey, pyInt, stripAlpha,
    pyIntChars, pyIntDigits, digitsVal, digVal, statRow, meanQ, medianQ,
    getCritTp, dropna, diffsLoop, getColName, dictInsert, positiveDiffs,
    minKeyGo, minKey, strLeB, List.insertionSort, List.orderedInsert, keyLe,
    List.mapM_cons, List.mapM_nil, List.mapM.loop, toCell]

/-- Witness for C5: the theorem applied to a concrete table with a
duplicated (duration, temporal-pattern) pair. -/
theorem c5_analyzer_duplicate_pairs_witness :
    tpVsMaxFlowDf ["Run ID", "Event", "Duration", "Temporal Pattern", "Max Flow PO1"]
      [⟨"e", "90m", "tp01", [("Max Flow PO1", some 3)]⟩,
       ⟨"e", "90m", "tp01", [("Max Flow PO1", some 5)]⟩] = none :=
  c5_analyzer_duplicate_pairs _ _ (by decide)

end TE
